import Mathlib

/-!
# PA4.c : contiguous-memory partition allocator

A shallow embedding of the memory-management engine of `src/PA4.c`
(`find_first_fit`, `find_best_fit`, `find_worst_fit`, `init_mem_mgr`,
`allocate_mem`, `free_mem`, `update_frag_metrics`) and the properties proved
about it.

Modelling conventions.

* A C `int` is a mathematical integer (`Int`); `INT_MAX` is `2^31 - 1`.  Signed
  overflow is undefined in C, so statements that depend on the range of an `int`
  carry the range as a hypothesis.
* `MemBlock segments[MAX_MEM_BLKS]` is a total map `Nat → MemBlock` from slot
  index to slot contents.  Slots at or beyond `num_blocks` hold whatever was
  last written there, as in the C array.  The block table proper is the list of
  the first `num_blocks` slots, `MemMgr.blocks`.
* A counted `for` loop is a structurally recursive function whose first
  argument is the number of iterations that remain.
* The `do ... while (merged)` loop of `free_mem` has no syntactic bound; it is
  modelled with a fuel argument and returns `none` when the fuel runs out.
* `printf` calls and the `merge_ops` counter that only feeds them are not
  modelled.
* A C `double` is an exact rational number (`ℚ`): results about
  `update_frag_metrics` are about the value of the C expression without
  rounding.
* `free_mem` receives a pointer `proc` into the caller's request array and
  indexes it as `proc[j]`, `0 <= j < MAX_PROC`.  The model passes the cell the
  pointer designates together with the list of cells that follow it in the
  array; iterations whose cell lies past the end of that list touch nothing
  that is modelled.
-/

namespace PA4

/-! ## Constants and data model -/

/-- Capacity of the block table: `#define MAX_MEM_BLKS 100`. -/
def MAX_MEM_BLKS : Int := 100

/-- Size of the request array: `#define MAX_PROC 20`. -/
def MAX_PROC : Nat := 20

/-- Largest value of a 32-bit `int` (from limits.h). -/
def INT_MAX : Int := 2147483647

/-- Placement strategy selector: `enum AllocMethod`. -/
inductive AllocMethod where
  | FIRST_APPROACH
  | BEST_APPROACH
  | WORST_APPROACH
deriving DecidableEq

/-- Life-cycle state of a request: `enum ProcStatus`. -/
inductive ProcStatus where
  | PROC_NEW
  | PROC_ACTIVE
  | PROC_DONE
deriving DecidableEq

/-- One segment of the pool: `struct MemBlock`. -/
structure MemBlock where
  begin_addr : Int
  chunk_size : Int
  available : Bool
  proc_id : Int
deriving DecidableEq

/-- One allocation request: `struct Proc`. -/
structure Proc where
  id : Int
  req_size : Int
  status : ProcStatus
  block_idx : Int
deriving DecidableEq

/-- The allocator state: `struct MemMgr`. -/
structure MemMgr where
  full_size : Int
  avail_size : Int
  num_blocks : Int
  segments : Nat → MemBlock
  method : AllocMethod

/-- The block table: the first `num_blocks` slots of `segments`, in order. -/
def MemMgr.blocks (mgr : MemMgr) : List MemBlock :=
  (List.range mgr.num_blocks.toNat).map mgr.segments

/-! ## Fit strategies -/

/-- Loop of `find_first_fit`: `c` iterations remain, `i` is the loop variable.
The body returns `i` as soon as slot `i` is available and large enough. -/
def find_first_fit_loop (mgr : MemMgr) (size : Int) : Nat → Nat → Int
  | 0, _ => -1
  | c + 1, i =>
    if (mgr.segments i).available && decide ((mgr.segments i).chunk_size ≥ size) then
      (i : Int)
    else
      find_first_fit_loop mgr size c (i + 1)

/-- Embedding of `int find_first_fit(MemMgr *mgr, int size)`. -/
def find_first_fit (mgr : MemMgr) (size : Int) : Int :=
  find_first_fit_loop mgr size mgr.num_blocks.toNat 0

/-- Loop of `find_best_fit`, carrying the locals `best_idx` and `min_diff`. -/
def find_best_fit_loop (mgr : MemMgr) (size : Int) : Nat → Nat → Int → Int → Int
  | 0, _, best_idx, _ => best_idx
  | c + 1, i, best_idx, min_diff =>
    if (mgr.segments i).available && decide ((mgr.segments i).chunk_size ≥ size) then
      let size_diff := (mgr.segments i).chunk_size - size
      if size_diff < min_diff then
        find_best_fit_loop mgr size c (i + 1) (i : Int) size_diff
      else
        find_best_fit_loop mgr size c (i + 1) best_idx min_diff
    else
      find_best_fit_loop mgr size c (i + 1) best_idx min_diff

/-- Embedding of `int find_best_fit(MemMgr *mgr, int size)`:
`best_idx = -1`, `min_diff = INT_MAX`, then the loop. -/
def find_best_fit (mgr : MemMgr) (size : Int) : Int :=
  find_best_fit_loop mgr size mgr.num_blocks.toNat 0 (-1) INT_MAX

/-- Loop of `find_worst_fit`, carrying the locals `worst_idx` and `max_diff`. -/
def find_worst_fit_loop (mgr : MemMgr) (size : Int) : Nat → Nat → Int → Int → Int
  | 0, _, worst_idx, _ => worst_idx
  | c + 1, i, worst_idx, max_diff =>
    if (mgr.segments i).available && decide ((mgr.segments i).chunk_size ≥ size) then
      let size_diff := (mgr.segments i).chunk_size - size
      if size_diff > max_diff then
        find_worst_fit_loop mgr size c (i + 1) (i : Int) size_diff
      else
        find_worst_fit_loop mgr size c (i + 1) worst_idx max_diff
    else
      find_worst_fit_loop mgr size c (i + 1) worst_idx max_diff

/-- Embedding of `int find_worst_fit(MemMgr *mgr, int size)`:
`worst_idx = -1`, `max_diff = -1`, then the loop. -/
def find_worst_fit (mgr : MemMgr) (size : Int) : Int :=
  find_worst_fit_loop mgr size mgr.num_blocks.toNat 0 (-1) (-1)

/-! ## Initialisation -/

/-- Embedding of `void init_mem_mgr(MemMgr *mgr, AllocMethod method)`.  The
global `mem_capacity` it reads is the first argument; `mgr` is the memory the
function writes into, so every slot other than slot 0 keeps its old contents. -/
def init_mem_mgr (mem_capacity : Int) (mgr : MemMgr) (method : AllocMethod) : MemMgr :=
  { full_size := mem_capacity
    avail_size := mem_capacity
    num_blocks := 1
    method := method
    segments := Function.update mgr.segments 0
      { begin_addr := 0, chunk_size := mem_capacity, available := true, proc_id := -1 } }

/-! ## Allocation -/

/-- The shifting loop of `allocate_mem`,
`for (i = num_blocks; i > block_idx + 1; i--) segments[i] = segments[i - 1];`
with `c` iterations remaining and loop variable `i`. -/
def shift_up : Nat → Nat → (Nat → MemBlock) → (Nat → MemBlock)
  | 0, _, segs => segs
  | c + 1, i, segs => shift_up c (i - 1) (Function.update segs i (segs (i - 1)))

/-- The part of `allocate_mem` inside `if (chunk_size > req_size + 10)` once the
table-full test has passed: shift the tail of the table up by one slot, write
the remainder block into slot `block_idx + 1`, shrink slot `block_idx`, and
increment `num_blocks`. -/
def split_block (mgr : MemMgr) (k : Nat) (req_size : Int) : MemMgr :=
  let n := mgr.num_blocks.toNat
  let segs1 := shift_up (n - (k + 1)) n mgr.segments
  let segs2 := Function.update segs1 (k + 1)
    { begin_addr := (segs1 k).begin_addr + req_size
      chunk_size := (segs1 k).chunk_size - req_size
      available := true
      proc_id := -1 }
  let segs3 := Function.update segs2 k { segs2 k with chunk_size := req_size }
  { mgr with segments := segs3, num_blocks := mgr.num_blocks + 1 }

/-- The tail of `allocate_mem` (lines 314 to 320): mark slot `block_idx` as
owned by the request, record the slot in the request, charge `avail_size`. -/
def claim_block (mgr : MemMgr) (proc : Proc) (block_idx : Int) : Bool × MemMgr × Proc :=
  let k := block_idx.toNat
  let segs := Function.update mgr.segments k
    { mgr.segments k with available := false, proc_id := proc.id }
  (true,
   { mgr with segments := segs, avail_size := mgr.avail_size - proc.req_size },
   { proc with block_idx := block_idx, status := ProcStatus.PROC_ACTIVE })

/-- The `switch (mgr->method)` of `allocate_mem`. -/
def select_block (mgr : MemMgr) (size : Int) : Int :=
  match mgr.method with
  | AllocMethod.FIRST_APPROACH => find_first_fit mgr size
  | AllocMethod.BEST_APPROACH => find_best_fit mgr size
  | AllocMethod.WORST_APPROACH => find_worst_fit mgr size

/-- Embedding of `bool allocate_mem(MemMgr *mgr, Proc *proc)`.  The result is
the returned flag together with the contents of `*mgr` and `*proc` on return.
The sum `req_size + 10` of the split test is taken in `Int`; it is the value the
32-bit code computes exactly when `req_size + 10 ≤ INT_MAX`, and the theorems
that rest on the outcome of the test carry that bound as a hypothesis. -/
def allocate_mem (mgr : MemMgr) (proc : Proc) : Bool × MemMgr × Proc :=
  if proc.req_size > mgr.avail_size then
    (false, mgr, proc)
  else
    let block_idx := select_block mgr proc.req_size
    if block_idx = -1 then
      (false, mgr, proc)
    else if (mgr.segments block_idx.toNat).chunk_size > proc.req_size + 10 then
      if mgr.num_blocks ≥ MAX_MEM_BLKS then
        (false, mgr, proc)
      else
        claim_block (split_block mgr block_idx.toNat proc.req_size) proc block_idx
    else
      claim_block mgr proc block_idx

/-! ## Release and coalescing -/

/-- The inner copying loop of a merge,
`for (j = i + 1; j < num_blocks - 1; j++) segments[j] = segments[j + 1];`
with `c` iterations remaining and loop variable `j`. -/
def shift_down : Nat → Nat → (Nat → MemBlock) → (Nat → MemBlock)
  | 0, _, segs => segs
  | c + 1, j, segs => shift_down c (j + 1) (Function.update segs j (segs (j + 1)))

/-- The renumbering loop of a merge,
`for (j = 0; j < MAX_PROC; j++) if (proc[j].block_idx > i + 1) proc[j].block_idx--;`
over the cells starting at the pointer `proc`; `c` iterations remain and the
list holds the cells from the current `j` on. -/
def renumber : Nat → Int → List Proc → List Proc
  | 0, _, cells => cells
  | _ + 1, _, [] => []
  | c + 1, i, p :: cells =>
    (if p.block_idx > i + 1 then { p with block_idx := p.block_idx - 1 } else p)
      :: renumber c i cells

/-- Body of the `if` inside the scanning loop of `free_mem` (lines 359 to 374):
add the size of slot `i + 1` to slot `i`, close the gap, renumber, and
decrement `num_blocks`. -/
def merge_at (mgr : MemMgr) (cells : List Proc) (i : Nat) : MemMgr × List Proc :=
  let segs1 := Function.update mgr.segments i
    { mgr.segments i with
      chunk_size := (mgr.segments i).chunk_size + (mgr.segments (i + 1)).chunk_size }
  let segs2 := shift_down ((mgr.num_blocks - 1).toNat - (i + 1)) (i + 1) segs1
  ({ mgr with segments := segs2, num_blocks := mgr.num_blocks - 1 },
   renumber MAX_PROC (i : Int) cells)

/-- The scanning loop of `free_mem`,
`for (i = 0; i < num_blocks - 1; i++) if (both available) { merge; break; }`,
with `c` iterations remaining.  The flag is the value of `merged` on exit. -/
def merge_scan (mgr : MemMgr) (cells : List Proc) : Nat → Nat → Bool × MemMgr × List Proc
  | 0, _ => (false, mgr, cells)
  | c + 1, i =>
    if (mgr.segments i).available && (mgr.segments (i + 1)).available then
      (true, merge_at mgr cells i)
    else
      merge_scan mgr cells c (i + 1)

/-- The `do { ... } while (merged);` loop of `free_mem`.  Each unit of fuel pays
for one execution of the loop body; `none` means the fuel ran out. -/
def coalesce : Nat → MemMgr → List Proc → Option (MemMgr × List Proc)
  | 0, _, _ => none
  | fuel + 1, mgr, cells =>
    match merge_scan mgr cells (mgr.num_blocks - 1).toNat 0 with
    | (true, mgr1, cells1) => coalesce fuel mgr1 cells1
    | (false, mgr1, cells1) => some (mgr1, cells1)

/-- The first statements of `free_mem` after the guard (lines 332 to 334): mark
slot `idx` available, clear its owner, and credit its size to `avail_size`. -/
def release_block (mgr : MemMgr) (idx : Nat) : MemMgr :=
  { mgr with
    segments := Function.update mgr.segments idx
      { mgr.segments idx with available := true, proc_id := -1 }
    avail_size := mgr.avail_size + (mgr.segments idx).chunk_size }

/-- Embedding of `void free_mem(MemMgr *mgr, Proc *proc)`.  `proc` is the cell
the pointer designates and `rest` the cells `proc[1]`, `proc[2]`, ... after it.
The result is the contents of `*mgr` and of the cells `proc[0]`, `proc[1]`, ...
on return. -/
def free_mem (fuel : Nat) (mgr : MemMgr) (proc : Proc) (rest : List Proc) :
    Option (MemMgr × List Proc) :=
  if proc.block_idx = -1 then
    some (mgr, proc :: rest)
  else
    coalesce fuel (release_block mgr proc.block_idx.toNat)
      ({ proc with status := ProcStatus.PROC_DONE, block_idx := -1 } :: rest)

/-! ## Specification vocabulary -/

/-- Slot `i` can satisfy a request of `size`: it is available and its
`chunk_size` is at least `size` (the test made by all three strategies). -/
def Qualifies (mgr : MemMgr) (size : Int) (i : Nat) : Prop :=
  (mgr.segments i).available = true ∧ (mgr.segments i).chunk_size ≥ size

/-- The value `r` is a first-fit answer: `-1` when no slot of the table
qualifies, otherwise the lowest qualifying index. -/
def IsFirstFit (mgr : MemMgr) (size : Int) (r : Int) : Prop :=
  (r = -1 ∧ ∀ j, j < mgr.num_blocks.toNat → ¬ Qualifies mgr size j) ∨
  (∃ k : Nat, r = (k : Int) ∧ k < mgr.num_blocks.toNat ∧ Qualifies mgr size k ∧
    ∀ j, j < k → ¬ Qualifies mgr size j)

/-- The value `r` is a best-fit answer: `-1` when no slot of the table
qualifies, otherwise a qualifying index whose leftover `chunk_size - size` is
minimal among qualifying slots and which is the lowest index with that
leftover. -/
def IsBestFit (mgr : MemMgr) (size : Int) (r : Int) : Prop :=
  (r = -1 ∧ ∀ j, j < mgr.num_blocks.toNat → ¬ Qualifies mgr size j) ∨
  (∃ k : Nat, r = (k : Int) ∧ k < mgr.num_blocks.toNat ∧ Qualifies mgr size k ∧
    (∀ j, j < mgr.num_blocks.toNat → Qualifies mgr size j →
      (mgr.segments k).chunk_size - size ≤ (mgr.segments j).chunk_size - size) ∧
    (∀ j, j < mgr.num_blocks.toNat → Qualifies mgr size j →
      (mgr.segments j).chunk_size - size = (mgr.segments k).chunk_size - size → k ≤ j))

/-- The value `r` is a worst-fit answer: `-1` when no slot of the table
qualifies, otherwise a qualifying index whose leftover `chunk_size - size` is
maximal among qualifying slots and which is the lowest index with that
leftover. -/
def IsWorstFit (mgr : MemMgr) (size : Int) (r : Int) : Prop :=
  (r = -1 ∧ ∀ j, j < mgr.num_blocks.toNat → ¬ Qualifies mgr size j) ∨
  (∃ k : Nat, r = (k : Int) ∧ k < mgr.num_blocks.toNat ∧ Qualifies mgr size k ∧
    (∀ j, j < mgr.num_blocks.toNat → Qualifies mgr size j →
      (mgr.segments j).chunk_size - size ≤ (mgr.segments k).chunk_size - size) ∧
    (∀ j, j < mgr.num_blocks.toNat → Qualifies mgr size j →
      (mgr.segments j).chunk_size - size = (mgr.segments k).chunk_size - size → k ≤ j))

/-- Loop invariant of `find_best_fit` once slots `0 .. i-1` have been visited. -/
def BestInv (mgr : MemMgr) (size : Int) (i : Nat) (best_idx min_diff : Int) : Prop :=
  (best_idx = -1 ∧ min_diff = INT_MAX ∧ ∀ j, j < i → ¬ Qualifies mgr size j) ∨
  (∃ k : Nat, best_idx = (k : Int) ∧ k < i ∧ Qualifies mgr size k ∧
    min_diff = (mgr.segments k).chunk_size - size ∧
    (∀ j, j < i → Qualifies mgr size j → min_diff ≤ (mgr.segments j).chunk_size - size) ∧
    (∀ j, j < k → Qualifies mgr size j → min_diff < (mgr.segments j).chunk_size - size))

/-- Loop invariant of `find_worst_fit` once slots `0 .. i-1` have been visited. -/
def WorstInv (mgr : MemMgr) (size : Int) (i : Nat) (worst_idx max_diff : Int) : Prop :=
  (worst_idx = -1 ∧ max_diff = -1 ∧ ∀ j, j < i → ¬ Qualifies mgr size j) ∨
  (∃ k : Nat, worst_idx = (k : Int) ∧ k < i ∧ Qualifies mgr size k ∧
    max_diff = (mgr.segments k).chunk_size - size ∧
    (∀ j, j < i → Qualifies mgr size j → (mgr.segments j).chunk_size - size ≤ max_diff) ∧
    (∀ j, j < k → Qualifies mgr size j → (mgr.segments j).chunk_size - size < max_diff))

/-- A manager whose block table is the list `bs`, used to state concrete
scenarios.  Slots past the table hold an unavailable block of size 0. -/
def table_of (method : AllocMethod) (full avail : Int) (bs : List MemBlock) : MemMgr :=
  { full_size := full
    avail_size := avail
    num_blocks := (bs.length : Int)
    segments := fun i => bs.getD i ⟨0, 0, false, -1⟩
    method := method }

/-- The three rejection tests of `allocate_mem`, in source order: the request
exceeds `avail_size`; the strategy found no slot; the chosen slot needs a split
and the table is full. -/
def Rejects (mgr : MemMgr) (proc : Proc) : Prop :=
  proc.req_size > mgr.avail_size ∨
  select_block mgr proc.req_size = -1 ∨
  ((mgr.segments (select_block mgr proc.req_size).toNat).chunk_size > proc.req_size + 10 ∧
    mgr.num_blocks ≥ MAX_MEM_BLKS)

instance (mgr : MemMgr) (proc : Proc) : Decidable (Rejects mgr proc) := by
  unfold Rejects; infer_instance

/-- A full block table used in concrete scenarios: 100 blocks of size 50, the
odd-numbered ones free, the even-numbered ones owned by distinct requests. -/
def full_table (method : AllocMethod) : MemMgr :=
  { full_size := 5000
    avail_size := 2500
    num_blocks := 100
    segments := fun i => ⟨50 * (i : Int), 50, i % 2 == 1, if i % 2 == 1 then -1 else (i : Int)⟩
    method := method }

/-! ## Reachable states -/

/-- The states of one strategy run.  A run starts from the table written by
`init_mem_mgr` for capacity `cap` (in `main` the capacity read from the input
file) and a request array as `load_procs_from_file` leaves it: every request
`PROC_NEW` with `block_idx = -1`.  It proceeds by calls
`allocate_mem(mgr, &procs[p])` and `free_mem(mgr, &procs[p])` on any position
`p` of the array, in any order. -/
inductive Reachable (cap : Int) : MemMgr → List Proc → Prop where
  | init (mgr0 : MemMgr) (method : AllocMethod) (procs : List Proc) :
      (∀ q, q ∈ procs → q.status = ProcStatus.PROC_NEW ∧ q.block_idx = -1) →
      Reachable cap (init_mem_mgr cap mgr0 method) procs
  | alloc (mgr : MemMgr) (procs : List Proc) (p : Nat) (proc : Proc) :
      Reachable cap mgr procs → procs[p]? = some proc →
      Reachable cap (allocate_mem mgr proc).2.1 (procs.set p (allocate_mem mgr proc).2.2)
  | free (mgr : MemMgr) (procs : List Proc) (fuel p : Nat) (proc : Proc)
      (r : MemMgr × List Proc) :
      Reachable cap mgr procs → procs[p]? = some proc →
      free_mem fuel mgr proc (procs.drop (p + 1)) = some r →
      Reachable cap r.1 (procs.take p ++ r.2)

/-- Sum of `chunk_size` over the first `num_blocks` slots. -/
def total_size (mgr : MemMgr) : Int :=
  ((List.range mgr.num_blocks.toNat).map (fun j => (mgr.segments j).chunk_size)).sum

/-- Slots `i` and `i + 1` are both available. -/
def BothFree (mgr : MemMgr) (i : Nat) : Prop :=
  (mgr.segments i).available = true ∧ (mgr.segments (i + 1)).available = true

/-- No two neighbouring blocks of the table are both available. -/
def NoAdjacentFree (mgr : MemMgr) : Prop :=
  ∀ i, i + 1 < mgr.num_blocks.toNat → ¬ BothFree mgr i

/-- Every `PROC_ACTIVE` request refers to a slot of the table that is not
available and carries the request's id. -/
def RefsConsistent (mgr : MemMgr) (procs : List Proc) : Prop :=
  ∀ q, q ∈ procs → q.status = ProcStatus.PROC_ACTIVE →
    0 ≤ q.block_idx ∧ q.block_idx < mgr.num_blocks ∧
    (mgr.segments q.block_idx.toNat).available = false ∧
    (mgr.segments q.block_idx.toNat).proc_id = q.id

/-- An arbitrary piece of memory for `init_mem_mgr` to write into. -/
def blank_mgr : MemMgr :=
  { full_size := 0
    avail_size := 0
    num_blocks := 0
    segments := fun _ => ⟨0, 0, false, 0⟩
    method := AllocMethod.FIRST_APPROACH }

/-- The call `allocate_mem(mgr, &procs[p])` made by `run_sim`, on the pair of
the manager and the request array.  A position outside the array is no call. -/
def call_allocate (s : MemMgr × List Proc) (p : Nat) : MemMgr × List Proc :=
  match s.2[p]? with
  | some proc => ((allocate_mem s.1 proc).2.1, s.2.set p (allocate_mem s.1 proc).2.2)
  | none => s

/-- The call `free_mem(mgr, &procs[p])` made by `run_sim`, on the pair of the
manager and the request array: the cells from position `p` on are the ones the
callee can index.  A position outside the array, or fuel that does not let the
callee return, is no call. -/
def call_free (fuel : Nat) (s : MemMgr × List Proc) (p : Nat) : MemMgr × List Proc :=
  match s.2[p]? with
  | some proc =>
    match free_mem fuel s.1 proc (s.2.drop (p + 1)) with
    | some r => (r.1, s.2.take p ++ r.2)
    | none => s
  | none => s

/-- Three requests as the loader leaves them: P1 of size 40, P2 and P3 of size 20. -/
def scenario_procs : List Proc :=
  [⟨1, 40, ProcStatus.PROC_NEW, -1⟩, ⟨2, 20, ProcStatus.PROC_NEW, -1⟩,
   ⟨3, 20, ProcStatus.PROC_NEW, -1⟩]

/-- Capacity 100, first-fit: P1 and P2 have been allocated. -/
def scenario_two_allocated : MemMgr × List Proc :=
  call_allocate (call_allocate
    (init_mem_mgr 100 blank_mgr AllocMethod.FIRST_APPROACH, scenario_procs) 0) 1

/-- The run continues: P1 is freed, then P3 is allocated into the hole P1 left. -/
def scenario_hole_reused : MemMgr × List Proc :=
  call_allocate (call_free 4 scenario_two_allocated 0) 2

/-- The states of one strategy run in which `allocate_mem` is only ever called
on a request that satisfies `ok` (for instance: has a positive size, or is
still `PROC_NEW`).  Apart from that guard the runs are those of `Reachable`. -/
inductive ReachableWhen (cap : Int) (ok : Proc → Prop) : MemMgr → List Proc → Prop where
  | init (mgr0 : MemMgr) (method : AllocMethod) (procs : List Proc) :
      (∀ q, q ∈ procs → q.status = ProcStatus.PROC_NEW ∧ q.block_idx = -1) →
      ReachableWhen cap ok (init_mem_mgr cap mgr0 method) procs
  | alloc (mgr : MemMgr) (procs : List Proc) (p : Nat) (proc : Proc) :
      ReachableWhen cap ok mgr procs → procs[p]? = some proc → ok proc →
      ReachableWhen cap ok (allocate_mem mgr proc).2.1
        (procs.set p (allocate_mem mgr proc).2.2)
  | free (mgr : MemMgr) (procs : List Proc) (fuel p : Nat) (proc : Proc)
      (r : MemMgr × List Proc) :
      ReachableWhen cap ok mgr procs → procs[p]? = some proc →
      free_mem fuel mgr proc (procs.drop (p + 1)) = some r →
      ReachableWhen cap ok r.1 (procs.take p ++ r.2)

/-- Each block of the table starts where the block before it ends. -/
def Contiguous (mgr : MemMgr) : Prop :=
  ∀ i, i + 1 < mgr.num_blocks.toNat →
    (mgr.segments (i + 1)).begin_addr = (mgr.segments i).begin_addr + (mgr.segments i).chunk_size

/-- The table always holds between 1 and `MAX_MEM_BLKS` blocks. -/
def BlockCountOk (mgr : MemMgr) : Prop :=
  1 ≤ mgr.num_blocks ∧ mgr.num_blocks ≤ MAX_MEM_BLKS

/-- Every block of the table has a size of at least 0. -/
def NonNegSizes (mgr : MemMgr) : Prop :=
  ∀ j, j < mgr.num_blocks.toNat → 0 ≤ (mgr.segments j).chunk_size

/-- Every available block of the table has `proc_id = -1`. -/
def FreeUnowned (mgr : MemMgr) : Prop :=
  ∀ j, j < mgr.num_blocks.toNat → (mgr.segments j).available = true →
    (mgr.segments j).proc_id = -1

/-- Sum of `chunk_size` over the available blocks of the table. -/
def free_total (mgr : MemMgr) : Int :=
  ((mgr.blocks.filter (fun b => b.available)).map MemBlock.chunk_size).sum

/-- Three requests of size 20 as the loader leaves them: P1, P2, P3. -/
def equal_procs : List Proc :=
  [⟨1, 20, ProcStatus.PROC_NEW, -1⟩, ⟨2, 20, ProcStatus.PROC_NEW, -1⟩,
   ⟨3, 20, ProcStatus.PROC_NEW, -1⟩]

/-- Capacity 100, first-fit, requests `equal_procs`: P2, P3 and P1 are allocated
in that order, then P2 is freed.  The table is `[free:20][P3:20][P1:20][free:40]`
and P1, stored at position 0 of the array, has `block_idx = 2`. -/
def scenario_before_merge : MemMgr × List Proc :=
  call_free 5 (call_allocate (call_allocate (call_allocate
    (init_mem_mgr 100 blank_mgr AllocMethod.FIRST_APPROACH, equal_procs) 1) 2) 0) 1

/-- The run continues with `free_mem(mgr, &procs[2])`: P3 is freed, and blocks 0
and 1 are merged. -/
def scenario_after_merge : MemMgr × List Proc :=
  call_free 5 scenario_before_merge 2

/-- Capacity 100, first-fit, one request P1 of size 95, allocated. -/
def scenario_whole_block : MemMgr × List Proc :=
  call_allocate (init_mem_mgr 100 blank_mgr AllocMethod.FIRST_APPROACH,
    [⟨1, 95, ProcStatus.PROC_NEW, -1⟩]) 0

/-- Requests of the end-to-end scenario: P1 of size 30 and P2 of size 20. -/
def end_to_end_procs : List Proc :=
  [⟨1, 30, ProcStatus.PROC_NEW, -1⟩, ⟨2, 20, ProcStatus.PROC_NEW, -1⟩]

/-- End-to-end scenario, capacity 100, best-fit: P1 allocated. -/
def end_to_end_1 : MemMgr × List Proc :=
  call_allocate (init_mem_mgr 100 blank_mgr AllocMethod.BEST_APPROACH, end_to_end_procs) 0

/-- End-to-end scenario: then P2 allocated. -/
def end_to_end_2 : MemMgr × List Proc := call_allocate end_to_end_1 1

/-- End-to-end scenario: then P1 freed. -/
def end_to_end_3 : MemMgr × List Proc := call_free 4 end_to_end_2 0

/-- End-to-end scenario: then P2 freed. -/
def end_to_end_4 : MemMgr × List Proc := call_free 4 end_to_end_3 1

/-- The part of a request that neither `allocate_mem` on another request nor the
renumbering loop of `free_mem` changes: its id and its status. -/
def Proc.tag (q : Proc) : Int × ProcStatus := (q.id, q.status)

/-- The id `x` belongs to a request of the array that has left `PROC_NEW`. -/
def Allocated (procs : List Proc) (x : Int) : Prop :=
  ∃ q, q ∈ procs ∧ q.id = x ∧ q.status ≠ ProcStatus.PROC_NEW

/-- Ownership discipline of the table relative to a set `S` of ids: an
available block has `proc_id = -1`, a block that is not available has
`proc_id` different from `-1`, every `proc_id` other than `-1` is in `S`, and
no two blocks carry the same `proc_id` other than `-1`. -/
def TableOwn (S : Int → Prop) (mgr : MemMgr) : Prop :=
  (∀ j, j < mgr.num_blocks.toNat → (mgr.segments j).available = true →
    (mgr.segments j).proc_id = -1) ∧
  (∀ j, j < mgr.num_blocks.toNat → (mgr.segments j).available = false →
    (mgr.segments j).proc_id ≠ -1) ∧
  (∀ j, j < mgr.num_blocks.toNat → (mgr.segments j).proc_id ≠ -1 →
    S (mgr.segments j).proc_id) ∧
  (∀ j1 j2, j1 < mgr.num_blocks.toNat → j2 < mgr.num_blocks.toNat →
    (mgr.segments j1).proc_id = (mgr.segments j2).proc_id →
    (mgr.segments j1).proc_id ≠ -1 → j1 = j2)

/-! ## Fragmentation metrics -/

/-- The statistics record: `struct Stats`.  A C `double` is modelled as an exact
rational number, so every result below is the value of the C expression read
as exact rational arithmetic, without rounding. -/
structure Stats where
  alloc_tries : Int
  alloc_success : Int
  alloc_fails : Int
  avg_usage : ℚ
  max_usage : ℚ
  ext_frag : Int
  frag_percent : ℚ
  avg_frag_size : ℚ

/-- First loop of `update_frag_metrics` (lines 550 to 558), carrying
`stats->ext_frag`, `total_free_size` and `free_block_count`; `c` iterations
remain and `i` is the loop variable. -/
def count_free_loop (mgr : MemMgr) : Nat → Nat → Int × Int × Int → Int × Int × Int
  | 0, _, acc => acc
  | c + 1, i, (ext_frag, total_free_size, free_block_count) =>
    if (mgr.segments i).available then
      count_free_loop mgr c (i + 1)
        (ext_frag + 1, total_free_size + (mgr.segments i).chunk_size, free_block_count + 1)
    else
      count_free_loop mgr c (i + 1) (ext_frag, total_free_size, free_block_count)

/-- Second loop of `update_frag_metrics` (lines 570 to 576), carrying
`largest_free_block`. -/
def largest_free_loop (mgr : MemMgr) : Nat → Nat → Int → Int
  | 0, _, largest_free_block => largest_free_block
  | c + 1, i, largest_free_block =>
    if (mgr.segments i).available &&
        decide ((mgr.segments i).chunk_size > largest_free_block) then
      largest_free_loop mgr c (i + 1) (mgr.segments i).chunk_size
    else
      largest_free_loop mgr c (i + 1) largest_free_block

/-- Embedding of `void update_frag_metrics(MemMgr *mgr, Proc procs[], int
num_procs, Stats *stats)`.  The body never reads `procs` or `num_procs`, so the
model does not take them.  The result is the contents of `*stats` on return. -/
def update_frag_metrics (mgr : MemMgr) (stats : Stats) : Stats :=
  let counted := count_free_loop mgr mgr.num_blocks.toNat 0 (0, 0, 0)
  let total_free_size := counted.2.1
  let free_block_count := counted.2.2
  let avg_frag_size : ℚ :=
    if free_block_count > 0 then (total_free_size : ℚ) / (free_block_count : ℚ) else 0
  let frag_percent : ℚ :=
    if mgr.avail_size > 0 then
      if free_block_count > 1 then
        (((mgr.avail_size - largest_free_loop mgr mgr.num_blocks.toNat 0 0 : Int) : ℚ)
          / (mgr.avail_size : ℚ)) * 100
      else 0
    else 0
  { stats with
    ext_frag := counted.1
    frag_percent := frag_percent
    avg_frag_size := avg_frag_size }

/-- Number of available blocks of the table. -/
def free_count (mgr : MemMgr) : Nat :=
  (mgr.blocks.filter (fun b => b.available)).length

/-- The value `L` is the largest `chunk_size` among the available blocks of the
table. -/
def IsLargestFree (mgr : MemMgr) (L : Int) : Prop :=
  (∃ j, j < mgr.num_blocks.toNat ∧ (mgr.segments j).available = true ∧
    (mgr.segments j).chunk_size = L) ∧
  (∀ j, j < mgr.num_blocks.toNat → (mgr.segments j).available = true →
    (mgr.segments j).chunk_size ≤ L)

/-- A statistics record with every field 0, for `update_frag_metrics` to write
into. -/
def zero_stats : Stats :=
  { alloc_tries := 0, alloc_success := 0, alloc_fails := 0, avg_usage := 0,
    max_usage := 0, ext_frag := 0, frag_percent := 0, avg_frag_size := 0 }

/-- Loop invariant of the second loop once slots `0 .. i-1` have been visited:
the running value is at least 0, bounds the sizes of the available slots seen,
and is one of them unless it is still the initial 0. -/
def LargestInv (mgr : MemMgr) (i : Nat) (l : Int) : Prop :=
  0 ≤ l ∧
  (∀ j, j < i → (mgr.segments j).available = true → (mgr.segments j).chunk_size ≤ l) ∧
  ((∃ j, j < i ∧ (mgr.segments j).available = true ∧ (mgr.segments j).chunk_size = l) ∨ l = 0)

/-- The run of `scenario_whole_block` continues: P1 is freed again. -/
def scenario_whole_block_freed : MemMgr × List Proc :=
  call_free 3 scenario_whole_block 0

/-- The blocks of the table that are not available, in table order. -/
def used_blocks (mgr : MemMgr) : List MemBlock :=
  mgr.blocks.filter (fun b => !b.available)

/-- The first `num_blocks` slots of `m` are those of `mgr`. -/
def SameTable (mgr m : MemMgr) : Prop :=
  m.num_blocks = mgr.num_blocks ∧
    ∀ j, j < mgr.num_blocks.toNat → m.segments j = mgr.segments j

/-! # Theorems -/

/-! ## Fit strategies -/

theorem qualifies_iff (mgr : MemMgr) (size : Int) (i : Nat) :
    ((mgr.segments i).available && decide ((mgr.segments i).chunk_size ≥ size)) = true
      ↔ Qualifies mgr size i := by
  simp [Qualifies]

theorem find_first_fit_loop_spec (mgr : MemMgr) (size : Int) :
    ∀ (c i : Nat), (∀ j, j < i → ¬ Qualifies mgr size j) →
      (find_first_fit_loop mgr size c i = -1 ∧ ∀ j, j < i + c → ¬ Qualifies mgr size j) ∨
      (∃ k : Nat, find_first_fit_loop mgr size c i = (k : Int) ∧ k < i + c ∧
        Qualifies mgr size k ∧ ∀ j, j < k → ¬ Qualifies mgr size j) := by
  intro c
  induction c with
  | zero =>
    intro i h
    left
    exact ⟨rfl, by simpa using h⟩
  | succ c ih =>
    intro i h
    by_cases hq : Qualifies mgr size i
    · right
      refine ⟨i, ?_, by omega, hq, h⟩
      simp [find_first_fit_loop, (qualifies_iff mgr size i).mpr hq]
    · have hstep : find_first_fit_loop mgr size (c + 1) i = find_first_fit_loop mgr size c (i + 1) := by
        have : ¬ ((mgr.segments i).available && decide ((mgr.segments i).chunk_size ≥ size)) = true :=
          fun hh => hq ((qualifies_iff mgr size i).mp hh)
        simp only [find_first_fit_loop, this]
        simp
      have h2 : ∀ j, j < i + 1 → ¬ Qualifies mgr size j := by
        intro j hj
        rcases Nat.lt_succ_iff_lt_or_eq.mp hj with hlt | heq
        · exact h j hlt
        · subst heq; exact hq
      rcases ih (i + 1) h2 with ⟨hr, hn⟩ | ⟨k, hr, hk, hqk, hlow⟩
      · left
        refine ⟨by rw [hstep]; exact hr, ?_⟩
        intro j hj; exact hn j (by omega)
      · right
        exact ⟨k, by rw [hstep]; exact hr, by omega, hqk, hlow⟩

theorem find_best_fit_loop_step_no (mgr : MemMgr) (size : Int) (c i : Nat) (b d : Int)
    (hq : ¬ Qualifies mgr size i) :
    find_best_fit_loop mgr size (c + 1) i b d = find_best_fit_loop mgr size c (i + 1) b d := by
  have : ¬ ((mgr.segments i).available && decide ((mgr.segments i).chunk_size ≥ size)) = true :=
    fun hh => hq ((qualifies_iff mgr size i).mp hh)
  simp only [find_best_fit_loop, this]
  simp

theorem find_best_fit_loop_step_yes (mgr : MemMgr) (size : Int) (c i : Nat) (b d : Int)
    (hq : Qualifies mgr size i) :
    find_best_fit_loop mgr size (c + 1) i b d =
      if (mgr.segments i).chunk_size - size < d then
        find_best_fit_loop mgr size c (i + 1) (i : Int) ((mgr.segments i).chunk_size - size)
      else find_best_fit_loop mgr size c (i + 1) b d := by
  simp only [find_best_fit_loop, (qualifies_iff mgr size i).mpr hq]
  simp

theorem find_best_fit_loop_inv (mgr : MemMgr) (size : Int) :
    ∀ (c i : Nat) (b d : Int),
      (∀ j, j < i + c → Qualifies mgr size j → (mgr.segments j).chunk_size - size < INT_MAX) →
      BestInv mgr size i b d →
      ∃ d1, BestInv mgr size (i + c) (find_best_fit_loop mgr size c i b d) d1 := by
  intro c
  induction c with
  | zero => intro i b d _ h; exact ⟨d, h⟩
  | succ c ih =>
    intro i b d hb h
    have hb1 : ∀ j, j < i + 1 + c → Qualifies mgr size j →
        (mgr.segments j).chunk_size - size < INT_MAX := fun j hj => hb j (by omega)
    have hidx : i + (c + 1) = i + 1 + c := by omega
    rw [hidx]
    by_cases hq : Qualifies mgr size i
    · rw [find_best_fit_loop_step_yes mgr size c i b d hq]
      have hbi := hb i (by omega) hq
      split_ifs with hlt
      · apply ih (i + 1) _ _ hb1
        right
        refine ⟨i, rfl, by omega, hq, rfl, ?_, ?_⟩
        · intro j hj hqj
          rcases Nat.lt_succ_iff_lt_or_eq.mp hj with hji | hji
          · rcases h with ⟨_, _, hno⟩ | ⟨k, _, _, _, hd, hmin, _⟩
            · exact absurd hqj (hno j hji)
            · have := hmin j hji hqj; omega
          · subst hji; exact le_refl _
        · intro j hj hqj
          rcases h with ⟨_, _, hno⟩ | ⟨k, _, _, _, hd, hmin, _⟩
          · exact absurd hqj (hno j hj)
          · have := hmin j hj hqj; omega
      · apply ih (i + 1) _ _ hb1
        rcases h with ⟨_, hd, _⟩ | ⟨k, hk, hki, hqk, hd, hmin, hlow⟩
        · omega
        · right
          refine ⟨k, hk, by omega, hqk, hd, ?_, hlow⟩
          intro j hj hqj
          rcases Nat.lt_succ_iff_lt_or_eq.mp hj with hji | hji
          · exact hmin j hji hqj
          · subst hji; omega
    · rw [find_best_fit_loop_step_no mgr size c i b d hq]
      apply ih (i + 1) _ _ hb1
      rcases h with ⟨h1, h2, hno⟩ | ⟨k, hk, hki, hqk, hd, hmin, hlow⟩
      · left
        refine ⟨h1, h2, ?_⟩
        intro j hj
        rcases Nat.lt_succ_iff_lt_or_eq.mp hj with hji | hji
        · exact hno j hji
        · subst hji; exact hq
      · right
        refine ⟨k, hk, by omega, hqk, hd, ?_, hlow⟩
        intro j hj hqj
        rcases Nat.lt_succ_iff_lt_or_eq.mp hj with hji | hji
        · exact hmin j hji hqj
        · subst hji; exact absurd hqj hq

theorem find_worst_fit_loop_step_no (mgr : MemMgr) (size : Int) (c i : Nat) (b d : Int)
    (hq : ¬ Qualifies mgr size i) :
    find_worst_fit_loop mgr size (c + 1) i b d = find_worst_fit_loop mgr size c (i + 1) b d := by
  have : ¬ ((mgr.segments i).available && decide ((mgr.segments i).chunk_size ≥ size)) = true :=
    fun hh => hq ((qualifies_iff mgr size i).mp hh)
  simp only [find_worst_fit_loop, this]
  simp

theorem find_worst_fit_loop_step_yes (mgr : MemMgr) (size : Int) (c i : Nat) (b d : Int)
    (hq : Qualifies mgr size i) :
    find_worst_fit_loop mgr size (c + 1) i b d =
      if (mgr.segments i).chunk_size - size > d then
        find_worst_fit_loop mgr size c (i + 1) (i : Int) ((mgr.segments i).chunk_size - size)
      else find_worst_fit_loop mgr size c (i + 1) b d := by
  simp only [find_worst_fit_loop, (qualifies_iff mgr size i).mpr hq]
  simp

theorem find_worst_fit_loop_inv (mgr : MemMgr) (size : Int) :
    ∀ (c i : Nat) (b d : Int),
      WorstInv mgr size i b d →
      ∃ d1, WorstInv mgr size (i + c) (find_worst_fit_loop mgr size c i b d) d1 := by
  intro c
  induction c with
  | zero => intro i b d h; exact ⟨d, h⟩
  | succ c ih =>
    intro i b d h
    have hidx : i + (c + 1) = i + 1 + c := by omega
    rw [hidx]
    by_cases hq : Qualifies mgr size i
    · rw [find_worst_fit_loop_step_yes mgr size c i b d hq]
      have hbi : (mgr.segments i).chunk_size - size ≥ 0 := by
        have := hq.2; omega
      split_ifs with hlt
      · apply ih (i + 1)
        right
        refine ⟨i, rfl, by omega, hq, rfl, ?_, ?_⟩
        · intro j hj hqj
          rcases Nat.lt_succ_iff_lt_or_eq.mp hj with hji | hji
          · rcases h with ⟨_, _, hno⟩ | ⟨k, _, _, _, hd, hmax, _⟩
            · exact absurd hqj (hno j hji)
            · have := hmax j hji hqj; omega
          · subst hji; exact le_refl _
        · intro j hj hqj
          rcases h with ⟨_, _, hno⟩ | ⟨k, _, _, _, hd, hmax, _⟩
          · exact absurd hqj (hno j hj)
          · have := hmax j hj hqj; omega
      · apply ih (i + 1)
        rcases h with ⟨_, hd, _⟩ | ⟨k, hk, hki, hqk, hd, hmax, hlow⟩
        · omega
        · right
          refine ⟨k, hk, by omega, hqk, hd, ?_, hlow⟩
          intro j hj hqj
          rcases Nat.lt_succ_iff_lt_or_eq.mp hj with hji | hji
          · exact hmax j hji hqj
          · subst hji; omega
    · rw [find_worst_fit_loop_step_no mgr size c i b d hq]
      apply ih (i + 1)
      rcases h with ⟨h1, h2, hno⟩ | ⟨k, hk, hki, hqk, hd, hmax, hlow⟩
      · left
        refine ⟨h1, h2, ?_⟩
        intro j hj
        rcases Nat.lt_succ_iff_lt_or_eq.mp hj with hji | hji
        · exact hno j hji
        · subst hji; exact hq
      · right
        refine ⟨k, hk, by omega, hqk, hd, ?_, hlow⟩
        intro j hj hqj
        rcases Nat.lt_succ_iff_lt_or_eq.mp hj with hji | hji
        · exact hmax j hji hqj
        · subst hji; exact absurd hqj hq

theorem find_first_fit_isFirstFit (mgr : MemMgr) (size : Int) :
    IsFirstFit mgr size (find_first_fit mgr size) := by
  have h := find_first_fit_loop_spec mgr size mgr.num_blocks.toNat 0 (by intro j hj; omega)
  simpa [IsFirstFit, find_first_fit] using h

theorem find_best_fit_isBestFit (mgr : MemMgr) (size : Int)
    (hb : ∀ j, j < mgr.num_blocks.toNat → Qualifies mgr size j →
      (mgr.segments j).chunk_size - size < INT_MAX) :
    IsBestFit mgr size (find_best_fit mgr size) := by
  obtain ⟨d1, h⟩ := find_best_fit_loop_inv mgr size mgr.num_blocks.toNat 0 (-1) INT_MAX
    (by simpa using hb) (Or.inl ⟨rfl, rfl, by intro j hj; omega⟩)
  simp only [Nat.zero_add] at h
  rcases h with ⟨h1, _, hno⟩ | ⟨k, hk, hkn, hqk, hd, hmin, hlow⟩
  · exact Or.inl ⟨h1, hno⟩
  · right
    refine ⟨k, hk, hkn, hqk, ?_, ?_⟩
    · intro j hj hqj; have := hmin j hj hqj; omega
    · intro j hj hqj heq
      by_contra hlt
      have := hlow j (by omega) hqj
      omega

theorem find_worst_fit_isWorstFit (mgr : MemMgr) (size : Int) :
    IsWorstFit mgr size (find_worst_fit mgr size) := by
  obtain ⟨d1, h⟩ := find_worst_fit_loop_inv mgr size mgr.num_blocks.toNat 0 (-1) (-1)
    (Or.inl ⟨rfl, rfl, by intro j hj; omega⟩)
  simp only [Nat.zero_add] at h
  rcases h with ⟨h1, _, hno⟩ | ⟨k, hk, hkn, hqk, hd, hmax, hlow⟩
  · exact Or.inl ⟨h1, hno⟩
  · right
    refine ⟨k, hk, hkn, hqk, ?_, ?_⟩
    · intro j hj hqj; have := hmax j hj hqj; omega
    · intro j hj hqj heq
      by_contra hlt
      have := hlow j (by omega) hqj
      omega

/-- Claim C4 (first-fit).  For every block table and every requested size (in
particular every size greater than 0), `find_first_fit` returns `-1` when no
slot of the table is available with `chunk_size >= size`, and otherwise the
lowest index of such a slot; it returns `-1` exactly when no slot qualifies.
On the table `[free:30, used:20, free:50]` with size 10 it returns index 0. -/
theorem find_first_fit_lowest_qualifying :
    (∀ (mgr : MemMgr) (size : Int),
      IsFirstFit mgr size (find_first_fit mgr size) ∧
      (find_first_fit mgr size = -1 ↔
        ∀ j, j < mgr.num_blocks.toNat → ¬ Qualifies mgr size j)) ∧
    find_first_fit (table_of AllocMethod.FIRST_APPROACH 100 80
      [⟨0, 30, true, -1⟩, ⟨30, 20, false, 2⟩, ⟨50, 50, true, -1⟩]) 10 = 0 := by
  refine ⟨fun mgr size => ⟨find_first_fit_isFirstFit mgr size, ?_⟩, by decide⟩
  rcases find_first_fit_isFirstFit mgr size with ⟨h1, hno⟩ | ⟨k, hk, hkn, hqk, _⟩
  · exact ⟨fun _ => hno, fun _ => h1⟩
  · constructor
    · intro h; rw [hk] at h; omega
    · intro h; exact absurd hqk (h k hkn)

/-- Claim C5 (best-fit).  For every block table whose block sizes are positive
and at most `INT_MAX`, and every requested size greater than 0,
`find_best_fit` returns `-1` when no slot qualifies and otherwise a qualifying
index whose leftover `chunk_size - size` is minimal among the qualifying slots
and which is the lowest index with that leftover; it returns `-1` exactly when
no slot qualifies.  On free blocks of sizes `[40, 25, 25]` with size 20 it
returns index 1, the first block of size 25. -/
theorem find_best_fit_minimal_leftover :
    (∀ (mgr : MemMgr) (size : Int), 0 < size →
      (∀ j, j < mgr.num_blocks.toNat →
        0 < (mgr.segments j).chunk_size ∧ (mgr.segments j).chunk_size ≤ INT_MAX) →
      IsBestFit mgr size (find_best_fit mgr size) ∧
      (find_best_fit mgr size = -1 ↔
        ∀ j, j < mgr.num_blocks.toNat → ¬ Qualifies mgr size j)) ∧
    find_best_fit (table_of AllocMethod.BEST_APPROACH 90 90
      [⟨0, 40, true, -1⟩, ⟨40, 25, true, -1⟩, ⟨65, 25, true, -1⟩]) 20 = 1 := by
  refine ⟨fun mgr size hs hr => ?_, by decide⟩
  have hb : ∀ j, j < mgr.num_blocks.toNat → Qualifies mgr size j →
      (mgr.segments j).chunk_size - size < INT_MAX := by
    intro j hj _; have := (hr j hj).2; omega
  have hspec := find_best_fit_isBestFit mgr size hb
  refine ⟨hspec, ?_⟩
  rcases hspec with ⟨h1, hno⟩ | ⟨k, hk, hkn, hqk, _⟩
  · exact ⟨fun _ => hno, fun _ => h1⟩
  · constructor
    · intro h; rw [hk] at h; omega
    · intro h; exact absurd hqk (h k hkn)

theorem find_best_fit_minimal_leftover_witness :
    IsBestFit (table_of AllocMethod.BEST_APPROACH 90 90
      [⟨0, 40, true, -1⟩, ⟨40, 25, true, -1⟩, ⟨65, 25, true, -1⟩]) 20 1 :=
  (find_best_fit_minimal_leftover.1 (table_of AllocMethod.BEST_APPROACH 90 90
      [⟨0, 40, true, -1⟩, ⟨40, 25, true, -1⟩, ⟨65, 25, true, -1⟩]) 20 (by decide) (by decide)).1

/-- Claim C6 (worst-fit).  For every block table and every requested size (in
particular positive block sizes and a size greater than 0), `find_worst_fit`
returns `-1` when no slot qualifies and otherwise a qualifying index whose
leftover `chunk_size - size` is maximal among the qualifying slots and which is
the lowest index with that leftover; it returns `-1` exactly when no slot
qualifies.  On free blocks of sizes `[40, 25, 25]` with size 20 it returns
index 0, the block of size 40. -/
theorem find_worst_fit_maximal_leftover :
    (∀ (mgr : MemMgr) (size : Int),
      IsWorstFit mgr size (find_worst_fit mgr size) ∧
      (find_worst_fit mgr size = -1 ↔
        ∀ j, j < mgr.num_blocks.toNat → ¬ Qualifies mgr size j)) ∧
    find_worst_fit (table_of AllocMethod.WORST_APPROACH 90 90
      [⟨0, 40, true, -1⟩, ⟨40, 25, true, -1⟩, ⟨65, 25, true, -1⟩]) 20 = 0 := by
  refine ⟨fun mgr size => ⟨find_worst_fit_isWorstFit mgr size, ?_⟩, by decide⟩
  rcases find_worst_fit_isWorstFit mgr size with ⟨h1, hno⟩ | ⟨k, hk, hkn, hqk, _⟩
  · exact ⟨fun _ => hno, fun _ => h1⟩
  · constructor
    · intro h; rw [hk] at h; omega
    · intro h; exact absurd hqk (h k hkn)

/-! ## Allocation -/

/-- Whatever the sizes involved, the best-fit loop returns either the value
`best_idx` it started from or a qualifying slot it has visited. -/
theorem find_best_fit_loop_range (mgr : MemMgr) (size : Int) :
    ∀ (c i : Nat) (b d : Int),
      (b = -1 ∨ ∃ k : Nat, b = (k : Int) ∧ k < i ∧ Qualifies mgr size k) →
      (find_best_fit_loop mgr size c i b d = -1 ∨
        ∃ k : Nat, find_best_fit_loop mgr size c i b d = (k : Int) ∧ k < i + c ∧
          Qualifies mgr size k) := by
  intro c
  induction c with
  | zero => intro i b d h; simpa [find_best_fit_loop] using h
  | succ c ih =>
    intro i b d h
    have hidx : i + (c + 1) = i + 1 + c := by omega
    have hb1 : b = -1 ∨ ∃ k : Nat, b = (k : Int) ∧ k < i + 1 ∧ Qualifies mgr size k := by
      rcases h with h | ⟨k, hk, hki, hqk⟩
      · exact Or.inl h
      · exact Or.inr ⟨k, hk, by omega, hqk⟩
    rw [hidx]
    by_cases hq : Qualifies mgr size i
    · rw [find_best_fit_loop_step_yes mgr size c i b d hq]
      split_ifs
      · exact ih (i + 1) _ _ (Or.inr ⟨i, rfl, by omega, hq⟩)
      · exact ih (i + 1) _ _ hb1
    · rw [find_best_fit_loop_step_no mgr size c i b d hq]
      exact ih (i + 1) _ _ hb1

/-- The index chosen by the configured strategy is `-1` or a qualifying slot of
the table. -/
theorem select_block_valid (mgr : MemMgr) (size : Int) :
    select_block mgr size = -1 ∨
      ∃ k : Nat, select_block mgr size = (k : Int) ∧ k < mgr.num_blocks.toNat ∧
        Qualifies mgr size k := by
  unfold select_block
  cases mgr.method with
  | FIRST_APPROACH =>
    rcases find_first_fit_isFirstFit mgr size with ⟨h, _⟩ | ⟨k, hk, hkn, hqk, _⟩
    · exact Or.inl h
    · exact Or.inr ⟨k, hk, hkn, hqk⟩
  | BEST_APPROACH =>
    have h := find_best_fit_loop_range mgr size mgr.num_blocks.toNat 0 (-1) INT_MAX (Or.inl rfl)
    simpa [find_best_fit] using h
  | WORST_APPROACH =>
    rcases find_worst_fit_isWorstFit mgr size with ⟨h, _⟩ | ⟨k, hk, hkn, hqk, _⟩
    · exact Or.inl h
    · exact Or.inr ⟨k, hk, hkn, hqk⟩

/-- Effect of the shifting loop of `allocate_mem` on each slot. -/
theorem shift_up_apply :
    ∀ (c i : Nat) (segs : Nat → MemBlock) (j : Nat), c ≤ i →
      shift_up c i segs j = if i - c < j ∧ j ≤ i then segs (j - 1) else segs j := by
  intro c
  induction c with
  | zero =>
    intro i segs j _
    have : ¬ (i < j ∧ j ≤ i) := by omega
    simp [shift_up, this]
  | succ c ih =>
    intro i segs j hci
    rw [shift_up, ih (i - 1) _ j (by omega)]
    by_cases h1 : i - 1 - c < j ∧ j ≤ i - 1
    · have h2 : i - (c + 1) < j ∧ j ≤ i := by omega
      have h3 : j - 1 ≠ i := by omega
      simp [h1, h2, Function.update_noteq h3]
    · by_cases h4 : j = i
      · subst h4
        have h2 : j - (c + 1) < j ∧ j ≤ j := by omega
        simp [h1, h2]
      · have h2 : ¬ (i - (c + 1) < j ∧ j ≤ i) := by omega
        simp [h1, h2, Function.update_noteq h4]

/-- Effect of a split on each slot, for a chosen slot `k` inside the table. -/
theorem split_block_apply (mgr : MemMgr) (k : Nat) (r : Int)
    (hk : k < mgr.num_blocks.toNat) (j : Nat) :
    (split_block mgr k r).segments j =
      if j = k then { mgr.segments k with chunk_size := r }
      else if j = k + 1 then
        ⟨(mgr.segments k).begin_addr + r, (mgr.segments k).chunk_size - r, true, -1⟩
      else if k + 1 < j ∧ j ≤ mgr.num_blocks.toNat then mgr.segments (j - 1)
      else mgr.segments j := by
  have hsu := shift_up_apply (mgr.num_blocks.toNat - (k + 1)) mgr.num_blocks.toNat
    mgr.segments
  have hkk : shift_up (mgr.num_blocks.toNat - (k + 1)) mgr.num_blocks.toNat mgr.segments k
      = mgr.segments k := by
    rw [hsu k (by omega)]
    have : ¬ (mgr.num_blocks.toNat - (mgr.num_blocks.toNat - (k + 1)) < k ∧
        k ≤ mgr.num_blocks.toNat) := by omega
    simp [this]
  simp only [split_block]
  by_cases h1 : j = k
  · subst h1
    simp [hkk]
  · by_cases h2 : j = k + 1
    · subst h2
      simp [hkk]
    · rw [Function.update_noteq h1, Function.update_noteq h2, hsu j (by omega)]
      have e : mgr.num_blocks.toNat - (mgr.num_blocks.toNat - (k + 1)) = k + 1 := by omega
      simp [h1, h2, e]

/-- The control flow of `allocate_mem` as one case split. -/
theorem allocate_mem_eq (mgr : MemMgr) (proc : Proc) :
    allocate_mem mgr proc =
      if Rejects mgr proc then (false, mgr, proc)
      else if (mgr.segments (select_block mgr proc.req_size).toNat).chunk_size
          > proc.req_size + 10 then
        claim_block (split_block mgr (select_block mgr proc.req_size).toNat proc.req_size)
          proc (select_block mgr proc.req_size)
      else claim_block mgr proc (select_block mgr proc.req_size) := by
  unfold allocate_mem Rejects
  by_cases h1 : proc.req_size > mgr.avail_size
  · simp [h1]
  · by_cases h2 : select_block mgr proc.req_size = -1
    · simp [h1, h2]
    · by_cases h3 : (mgr.segments (select_block mgr proc.req_size).toNat).chunk_size
          > proc.req_size + 10
      · by_cases h4 : mgr.num_blocks ≥ MAX_MEM_BLKS
        · simp [h1, h2, h3, h4]
        · simp [h1, h2, h3, h4]
      · simp [h1, h2, h3]

theorem claim_block_fst (mgr : MemMgr) (proc : Proc) (b : Int) :
    (claim_block mgr proc b).1 = true := rfl

theorem allocate_mem_fst_false_iff (mgr : MemMgr) (proc : Proc) :
    (allocate_mem mgr proc).1 = false ↔ Rejects mgr proc := by
  rw [allocate_mem_eq]
  by_cases h : Rejects mgr proc
  · simp [h]
  · simp only [h, if_false]
    split_ifs <;> simp [claim_block_fst, h]

theorem allocate_mem_fst_true_iff (mgr : MemMgr) (proc : Proc) :
    (allocate_mem mgr proc).1 = true ↔ ¬ Rejects mgr proc := by
  rw [← allocate_mem_fst_false_iff]; simp

/-- What a successful call does: the chosen slot is a qualifying slot `k` of the
table, and the result is `claim_block` applied after a split or directly. -/
theorem allocate_mem_success (mgr : MemMgr) (proc : Proc)
    (h : (allocate_mem mgr proc).1 = true) :
    ∃ k : Nat, select_block mgr proc.req_size = (k : Int) ∧ k < mgr.num_blocks.toNat ∧
      Qualifies mgr proc.req_size k ∧ proc.req_size ≤ mgr.avail_size ∧
      (((mgr.segments k).chunk_size > proc.req_size + 10 ∧ mgr.num_blocks < MAX_MEM_BLKS ∧
          allocate_mem mgr proc = claim_block (split_block mgr k proc.req_size) proc (k : Int)) ∨
        ((mgr.segments k).chunk_size ≤ proc.req_size + 10 ∧
          allocate_mem mgr proc = claim_block mgr proc (k : Int))) := by
  have hr := (allocate_mem_fst_true_iff mgr proc).mp h
  have heq := allocate_mem_eq mgr proc
  simp only [hr, if_false] at heq
  unfold Rejects at hr
  push_neg at hr
  obtain ⟨h1, h2, h3⟩ := hr
  rcases select_block_valid mgr proc.req_size with hs | ⟨k, hk, hkn, hqk⟩
  · exact absurd hs h2
  · refine ⟨k, hk, hkn, hqk, h1, ?_⟩
    rw [hk] at heq h3
    simp only [Int.toNat_ofNat] at heq h3
    by_cases hc : (mgr.segments k).chunk_size > proc.req_size + 10
    · left
      refine ⟨hc, h3 hc, ?_⟩
      simpa [hc] using heq
    · right
      refine ⟨by omega, ?_⟩
      simpa [hc] using heq

/-- Contents of each slot after `claim_block`. -/
theorem claim_block_segments (mgr : MemMgr) (proc : Proc) (k j : Nat) :
    (claim_block mgr proc (k : Int)).2.1.segments j =
      if j = k then { mgr.segments k with available := false, proc_id := proc.id }
      else mgr.segments j := by
  simp [claim_block, Function.update_apply]

/-- Claim C8 (allocation success postcondition).  Whenever `allocate_mem` returns
true, the slot `i` it chose is the result of the configured strategy on the
state before the call (`find_first_fit`, `find_best_fit` or `find_worst_fit`
according to `mgr.method`) and lies inside the table; afterwards slot `i` is not
available and has `proc_id` equal to the request id, the request is
`PROC_ACTIVE` with `block_idx = i` and its id and size are untouched,
`avail_size` has decreased by exactly `req_size`, and `full_size` and `method`
are unchanged. -/
theorem allocate_mem_success_post (mgr : MemMgr) (proc : Proc)
    (h : (allocate_mem mgr proc).1 = true) :
    ∃ i : Nat, select_block mgr proc.req_size = (i : Int) ∧ i < mgr.num_blocks.toNat ∧
      (mgr.method = AllocMethod.FIRST_APPROACH → find_first_fit mgr proc.req_size = (i : Int)) ∧
      (mgr.method = AllocMethod.BEST_APPROACH → find_best_fit mgr proc.req_size = (i : Int)) ∧
      (mgr.method = AllocMethod.WORST_APPROACH → find_worst_fit mgr proc.req_size = (i : Int)) ∧
      ((allocate_mem mgr proc).2.1.segments i).available = false ∧
      ((allocate_mem mgr proc).2.1.segments i).proc_id = proc.id ∧
      (allocate_mem mgr proc).2.2.status = ProcStatus.PROC_ACTIVE ∧
      (allocate_mem mgr proc).2.2.block_idx = (i : Int) ∧
      (allocate_mem mgr proc).2.2.id = proc.id ∧
      (allocate_mem mgr proc).2.2.req_size = proc.req_size ∧
      (allocate_mem mgr proc).2.1.avail_size = mgr.avail_size - proc.req_size ∧
      (allocate_mem mgr proc).2.1.full_size = mgr.full_size ∧
      (allocate_mem mgr proc).2.1.method = mgr.method := by
  obtain ⟨k, hk, hkn, _, _, hcase⟩ := allocate_mem_success mgr proc h
  refine ⟨k, hk, hkn, ?_, ?_, ?_, ?_⟩
  · intro hm; simpa [select_block, hm] using hk
  · intro hm; simpa [select_block, hm] using hk
  · intro hm; simpa [select_block, hm] using hk
  · rcases hcase with ⟨_, _, heq⟩ | ⟨_, heq⟩
    · rw [heq, claim_block_segments]
      simp [claim_block, split_block]
    · rw [heq, claim_block_segments]
      simp [claim_block]

theorem allocate_mem_success_post_witness :
    ∃ i : Nat, select_block (init_mem_mgr 100 blank_mgr
        AllocMethod.BEST_APPROACH) 30 = (i : Int) ∧ i < 1 := by
  obtain ⟨i, h1, h2, _⟩ := allocate_mem_success_post
    (init_mem_mgr 100 blank_mgr AllocMethod.BEST_APPROACH)
    ⟨1, 30, ProcStatus.PROC_NEW, -1⟩ (by decide)
  exact ⟨i, h1, by simpa [init_mem_mgr] using h2⟩

/-- Claim C9 (the three failure cases).  `allocate_mem` returns false if and only
if `req_size > avail_size`, or the configured strategy returns `-1`, or the
chosen block needs a split (`chunk_size > req_size + 10`) while
`num_blocks >= MAX_MEM_BLKS`; in every other case it returns true. -/
theorem allocate_mem_fails_iff (mgr : MemMgr) (proc : Proc) :
    ((allocate_mem mgr proc).1 = false ↔
      (proc.req_size > mgr.avail_size ∨
        select_block mgr proc.req_size = -1 ∨
        ((mgr.segments (select_block mgr proc.req_size).toNat).chunk_size > proc.req_size + 10 ∧
          mgr.num_blocks ≥ MAX_MEM_BLKS))) ∧
    ((allocate_mem mgr proc).1 = true ↔
      ¬ (proc.req_size > mgr.avail_size ∨
        select_block mgr proc.req_size = -1 ∨
        ((mgr.segments (select_block mgr proc.req_size).toNat).chunk_size > proc.req_size + 10 ∧
          mgr.num_blocks ≥ MAX_MEM_BLKS))) := by
  have h := allocate_mem_fst_false_iff mgr proc
  unfold Rejects at h
  refine ⟨h, ?_⟩
  rw [← h]; simp

/-- Claim C10 (all-or-nothing).  If `allocate_mem` returns false then the manager
(every field, every segment) and the request are exactly as before the call. -/
theorem allocate_mem_all_or_nothing (mgr : MemMgr) (proc : Proc)
    (h : (allocate_mem mgr proc).1 = false) :
    (allocate_mem mgr proc).2.1 = mgr ∧ (allocate_mem mgr proc).2.2 = proc := by
  have hr := (allocate_mem_fst_false_iff mgr proc).mp h
  rw [allocate_mem_eq]
  simp [hr]

theorem allocate_mem_all_or_nothing_witness :
    (allocate_mem (full_table AllocMethod.FIRST_APPROACH) ⟨7, 20, ProcStatus.PROC_NEW, -1⟩).1
        = false ∧
      (allocate_mem (full_table AllocMethod.FIRST_APPROACH)
        ⟨7, 20, ProcStatus.PROC_NEW, -1⟩).2.1 = full_table AllocMethod.FIRST_APPROACH ∧
      (allocate_mem (full_table AllocMethod.FIRST_APPROACH)
        ⟨7, 20, ProcStatus.PROC_NEW, -1⟩).2.2 = ⟨7, 20, ProcStatus.PROC_NEW, -1⟩ :=
  ⟨by decide, allocate_mem_all_or_nothing (full_table AllocMethod.FIRST_APPROACH)
    ⟨7, 20, ProcStatus.PROC_NEW, -1⟩ (by decide)⟩

/-! ## Sums over a prefix of the slots -/

theorem range_sum_congr (f g : Nat → Int) :
    ∀ n, (∀ j, j < n → f j = g j) →
      ((List.range n).map f).sum = ((List.range n).map g).sum := by
  intro n
  induction n with
  | zero => intro _; rfl
  | succ n ih =>
    intro h
    rw [List.sum_range_succ, List.sum_range_succ, ih (fun j hj => h j (by omega)), h n (by omega)]

/-- Replacing entry `k` by two entries whose values add up to it leaves the sum
unchanged. -/
theorem range_sum_insert (f g : Nat → Int) (k n : Nat)
    (hlo : ∀ j, j < k → g j = f j) (hk : g k + g (k + 1) = f k)
    (hhi : ∀ j, k + 1 < j → j ≤ n → g j = f (j - 1)) :
    ∀ m, k < m → m ≤ n →
      ((List.range (m + 1)).map g).sum = ((List.range m).map f).sum := by
  intro m
  induction m with
  | zero => intro h; omega
  | succ m ih =>
    intro hm hmn
    rw [List.sum_range_succ g (m + 1), List.sum_range_succ f m]
    by_cases hkm : k < m
    · rw [ih hkm (by omega), hhi (m + 1) (by omega) hmn]
      simp
    · have e : m = k := by omega
      subst e
      rw [List.sum_range_succ g m, range_sum_congr g f m hlo]
      omega

/-- Replacing entries `i` and `i + 1` by one entry holding their sum leaves the
sum unchanged. -/
theorem range_sum_remove (f g : Nat → Int) (i n : Nat)
    (hlo : ∀ j, j < i → g j = f j) (hi : g i = f i + f (i + 1))
    (hhi : ∀ j, i < j → j + 1 < n → g j = f (j + 1)) :
    ∀ m, i + 1 < m → m ≤ n →
      ((List.range (m - 1)).map g).sum = ((List.range m).map f).sum := by
  intro m
  induction m with
  | zero => intro h; omega
  | succ m ih =>
    intro hm hmn
    rw [List.sum_range_succ f m]
    by_cases him : i + 1 < m
    · have e : m + 1 - 1 = (m - 1) + 1 := by omega
      rw [e, List.sum_range_succ g (m - 1), ih him (by omega), hhi (m - 1) (by omega) (by omega)]
      have e2 : m - 1 + 1 = m := by omega
      rw [e2]
    · have e : m = i + 1 := by omega
      subst e
      simp only [Nat.add_sub_cancel]
      rw [List.sum_range_succ g i, List.sum_range_succ f i, range_sum_congr g f i hlo, hi]
      omega

/-! ## Release and coalescing -/

/-- Effect of the gap-closing loop of a merge on each slot. -/
theorem shift_down_apply :
    ∀ (c j0 : Nat) (segs : Nat → MemBlock) (j : Nat),
      shift_down c j0 segs j = if j0 ≤ j ∧ j < j0 + c then segs (j + 1) else segs j := by
  intro c
  induction c with
  | zero =>
    intro j0 segs j
    have : ¬ (j0 ≤ j ∧ j < j0) := by omega
    simp [shift_down, this]
  | succ c ih =>
    intro j0 segs j
    rw [shift_down, ih (j0 + 1) _ j]
    by_cases h1 : j0 + 1 ≤ j ∧ j < j0 + 1 + c
    · have h2 : j0 ≤ j ∧ j < j0 + (c + 1) := by omega
      have h3 : j + 1 ≠ j0 := by omega
      simp [h1, h2, Function.update_noteq h3]
    · by_cases h4 : j = j0
      · subst h4
        have h2 : j ≤ j ∧ j < j + (c + 1) := by omega
        simp [h1, h2]
      · have h2 : ¬ (j0 ≤ j ∧ j < j0 + (c + 1)) := by omega
        simp [h1, h2, Function.update_noteq h4]

/-- Effect of one merge on each slot, for a pair `i`, `i + 1` inside the table. -/
theorem merge_at_segments (mgr : MemMgr) (cells : List Proc) (i : Nat)
    (hi : i + 1 < mgr.num_blocks.toNat) (j : Nat) :
    (merge_at mgr cells i).1.segments j =
      if j = i then
        { mgr.segments i with
          chunk_size := (mgr.segments i).chunk_size + (mgr.segments (i + 1)).chunk_size }
      else if i < j ∧ j + 1 < mgr.num_blocks.toNat then mgr.segments (j + 1)
      else mgr.segments j := by
  simp only [merge_at]
  rw [shift_down_apply]
  by_cases h1 : j = i
  · subst h1
    have h3 : ¬ (j + 1 ≤ j ∧ j < j + 1 + ((mgr.num_blocks - 1).toNat - (j + 1))) := by omega
    rw [if_neg h3, if_pos rfl, Function.update_same]
  · by_cases h2 : i < j ∧ j + 1 < mgr.num_blocks.toNat
    · have h3 : i + 1 ≤ j ∧ j < i + 1 + ((mgr.num_blocks - 1).toNat - (i + 1)) := by omega
      have h4 : j + 1 ≠ i := by omega
      rw [if_pos h3, if_neg h1, if_pos h2, Function.update_noteq h4]
    · have h3 : ¬ (i + 1 ≤ j ∧ j < i + 1 + ((mgr.num_blocks - 1).toNat - (i + 1))) := by omega
      rw [if_neg h3, if_neg h1, if_neg h2, Function.update_noteq h1]

theorem merge_at_num_blocks (mgr : MemMgr) (cells : List Proc) (i : Nat) :
    (merge_at mgr cells i).1.num_blocks = mgr.num_blocks - 1 := rfl

/-- Outcome of the scanning loop: either no pair in the scanned range is free and
nothing changes, or the first free pair `k` is merged. -/
theorem merge_scan_cases (mgr : MemMgr) (cells : List Proc) :
    ∀ (c i : Nat),
      (merge_scan mgr cells c i = (false, mgr, cells) ∧
        ∀ j, i ≤ j → j < i + c → ¬ BothFree mgr j) ∨
      (∃ k, i ≤ k ∧ k < i + c ∧ BothFree mgr k ∧ (∀ j, i ≤ j → j < k → ¬ BothFree mgr j) ∧
        merge_scan mgr cells c i = (true, merge_at mgr cells k)) := by
  intro c
  induction c with
  | zero =>
    intro i
    left
    exact ⟨rfl, by intro j h1 h2; omega⟩
  | succ c ih =>
    intro i
    by_cases hb : BothFree mgr i
    · right
      refine ⟨i, le_refl _, by omega, hb, by intro j h1 h2; omega, ?_⟩
      have : ((mgr.segments i).available && (mgr.segments (i + 1)).available) = true := by
        simp [hb.1, hb.2]
      simp [merge_scan, this]
    · have hstep : merge_scan mgr cells (c + 1) i = merge_scan mgr cells c (i + 1) := by
        have : ¬ ((mgr.segments i).available && (mgr.segments (i + 1)).available) = true := by
          intro hh
          simp only [Bool.and_eq_true] at hh
          exact hb hh
        simp only [merge_scan, this]
        simp
      rcases ih (i + 1) with ⟨h1, h2⟩ | ⟨k, h1, h2, h3, h4, h5⟩
      · left
        refine ⟨by rw [hstep]; exact h1, ?_⟩
        intro j hj1 hj2
        by_cases e : j = i
        · subst e; exact hb
        · exact h2 j (by omega) (by omega)
      · right
        refine ⟨k, by omega, by omega, h3, ?_, by rw [hstep]; exact h5⟩
        intro j hj1 hj2
        by_cases e : j = i
        · subst e; exact hb
        · exact h4 j (by omega) hj2

/-- Induction principle for the coalescing loop: a property of the manager and
the request cells that every merge of a free pair inside the table preserves
holds on exit if it holds on entry. -/
theorem coalesce_preserves (P : MemMgr → List Proc → Prop)
    (hstep : ∀ (mgr : MemMgr) (cells : List Proc) (k : Nat),
      k + 1 < mgr.num_blocks.toNat → BothFree mgr k → P mgr cells →
      P (merge_at mgr cells k).1 (merge_at mgr cells k).2) :
    ∀ (fuel : Nat) (mgr : MemMgr) (cells : List Proc) (r : MemMgr × List Proc),
      coalesce fuel mgr cells = some r → P mgr cells → P r.1 r.2 := by
  intro fuel
  induction fuel with
  | zero => intro mgr cells r h; simp [coalesce] at h
  | succ fuel ih =>
    intro mgr cells r h hP
    rcases merge_scan_cases mgr cells (mgr.num_blocks - 1).toNat 0 with
      ⟨h1, _⟩ | ⟨k, _, hk, hb, _, h5⟩
    · simp only [coalesce, h1] at h
      cases h
      exact hP
    · simp only [coalesce, h5] at h
      exact ih _ _ r h (hstep mgr cells k (by omega) hb hP)

/-- On exit of the coalescing loop no two neighbouring blocks are both free. -/
theorem coalesce_noAdjacentFree :
    ∀ (fuel : Nat) (mgr : MemMgr) (cells : List Proc) (r : MemMgr × List Proc),
      coalesce fuel mgr cells = some r → NoAdjacentFree r.1 := by
  intro fuel
  induction fuel with
  | zero => intro mgr cells r h; simp [coalesce] at h
  | succ fuel ih =>
    intro mgr cells r h
    rcases merge_scan_cases mgr cells (mgr.num_blocks - 1).toNat 0 with
      ⟨h1, h2⟩ | ⟨k, _, hk, hb, _, h5⟩
    · simp only [coalesce, h1] at h
      cases h
      intro i hi
      have hi2 : i + 1 < mgr.num_blocks.toNat := hi
      exact h2 i (Nat.zero_le _) (by omega)
    · simp only [coalesce, h5] at h
      exact ih _ _ r h

/-- The coalescing loop exits: fuel above the number of blocks is enough. -/
theorem coalesce_terminates :
    ∀ (fuel : Nat) (mgr : MemMgr) (cells : List Proc),
      mgr.num_blocks.toNat < fuel → ∃ r, coalesce fuel mgr cells = some r := by
  intro fuel
  induction fuel with
  | zero => intro mgr cells h; omega
  | succ fuel ih =>
    intro mgr cells hf
    rcases merge_scan_cases mgr cells (mgr.num_blocks - 1).toNat 0 with
      ⟨h1, _⟩ | ⟨k, _, hk, hb, _, h5⟩
    · exact ⟨(mgr, cells), by simp only [coalesce, h1]⟩
    · have hlt : (merge_at mgr cells k).1.num_blocks.toNat < fuel := by
        rw [merge_at_num_blocks]; omega
      obtain ⟨r, hr⟩ := ih (merge_at mgr cells k).1 (merge_at mgr cells k).2 hlt
      exact ⟨r, by simp only [coalesce, h5]; exact hr⟩

/-! ## Invariants of reachable states -/

theorem allocate_mem_of_rejects (mgr : MemMgr) (proc : Proc) (h : Rejects mgr proc) :
    allocate_mem mgr proc = (false, mgr, proc) := by
  rw [allocate_mem_eq]; simp [h]

theorem claim_block_num_blocks (mgr : MemMgr) (proc : Proc) (b : Int) :
    (claim_block mgr proc b).2.1.num_blocks = mgr.num_blocks := rfl

theorem split_block_num_blocks (mgr : MemMgr) (k : Nat) (r : Int) :
    (split_block mgr k r).num_blocks = mgr.num_blocks + 1 := rfl

theorem total_size_claim_block (mgr : MemMgr) (proc : Proc) (k : Nat) :
    total_size (claim_block mgr proc (k : Int)).2.1 = total_size mgr := by
  unfold total_size
  rw [claim_block_num_blocks]
  apply range_sum_congr
  intro j _
  rw [claim_block_segments]
  by_cases e : j = k
  · subst e; simp
  · simp [e]

theorem total_size_split_block (mgr : MemMgr) (k : Nat) (r : Int)
    (hk : k < mgr.num_blocks.toNat) :
    total_size (split_block mgr k r) = total_size mgr := by
  unfold total_size
  rw [split_block_num_blocks]
  have e : (mgr.num_blocks + 1).toNat = mgr.num_blocks.toNat + 1 := by omega
  rw [e]
  apply range_sum_insert _ _ k mgr.num_blocks.toNat _ _ _ _ hk (le_refl _)
  · intro j hj
    have e1 : j ≠ k := by omega
    have e2 : j ≠ k + 1 := by omega
    have e3 : ¬ (k + 1 < j ∧ j ≤ mgr.num_blocks.toNat) := by omega
    simp only [split_block_apply mgr k r hk, if_neg e1, if_neg e2, if_neg e3]
  · have e2 : k + 1 ≠ k := by omega
    simp only [split_block_apply mgr k r hk, if_pos, if_neg e2]
    simp
  · intro j hj hjn
    have e1 : j ≠ k := by omega
    have e2 : j ≠ k + 1 := by omega
    have e3 : k + 1 < j ∧ j ≤ mgr.num_blocks.toNat := by omega
    simp only [split_block_apply mgr k r hk, if_neg e1, if_neg e2, if_pos e3]

theorem total_size_allocate_mem (mgr : MemMgr) (proc : Proc) :
    total_size (allocate_mem mgr proc).2.1 = total_size mgr := by
  by_cases h : Rejects mgr proc
  · rw [allocate_mem_of_rejects mgr proc h]
  · obtain ⟨k, _, hkn, _, _, hcase⟩ :=
      allocate_mem_success mgr proc ((allocate_mem_fst_true_iff mgr proc).mpr h)
    rcases hcase with ⟨_, _, heq⟩ | ⟨_, heq⟩
    · rw [heq, total_size_claim_block, total_size_split_block mgr k _ hkn]
    · rw [heq, total_size_claim_block]

theorem full_size_allocate_mem (mgr : MemMgr) (proc : Proc) :
    (allocate_mem mgr proc).2.1.full_size = mgr.full_size := by
  rw [allocate_mem_eq]
  split_ifs <;> rfl

theorem total_size_release_block (mgr : MemMgr) (idx : Nat) :
    total_size (release_block mgr idx) = total_size mgr := by
  unfold total_size
  apply range_sum_congr
  intro j _
  by_cases e : j = idx
  · subst e; simp [release_block]
  · simp [release_block, Function.update_noteq e]

theorem total_size_merge_at (mgr : MemMgr) (cells : List Proc) (i : Nat)
    (hi : i + 1 < mgr.num_blocks.toNat) :
    total_size (merge_at mgr cells i).1 = total_size mgr := by
  unfold total_size
  rw [merge_at_num_blocks]
  have e : (mgr.num_blocks - 1).toNat = mgr.num_blocks.toNat - 1 := by omega
  rw [e]
  apply range_sum_remove _ _ i mgr.num_blocks.toNat _ _ _ _ hi (le_refl _)
  · intro j hj
    have e1 : j ≠ i := by omega
    have e2 : ¬ (i < j ∧ j + 1 < mgr.num_blocks.toNat) := by omega
    simp only [merge_at_segments mgr cells i hi, if_neg e1, if_neg e2]
  · simp only [merge_at_segments mgr cells i hi, if_pos]
  · intro j hj hjn
    have e1 : j ≠ i := by omega
    have e2 : i < j ∧ j + 1 < mgr.num_blocks.toNat := by omega
    simp only [merge_at_segments mgr cells i hi, if_neg e1, if_pos e2]

theorem merge_at_full_size (mgr : MemMgr) (cells : List Proc) (i : Nat) :
    (merge_at mgr cells i).1.full_size = mgr.full_size := rfl

/-- The two ways `free_mem` can run: the guard returns at once, or the block is
released and the coalescing loop runs. -/
theorem free_mem_cases (fuel : Nat) (mgr : MemMgr) (proc : Proc) (rest : List Proc) :
    (proc.block_idx = -1 ∧ free_mem fuel mgr proc rest = some (mgr, proc :: rest)) ∨
    (proc.block_idx ≠ -1 ∧
      free_mem fuel mgr proc rest =
        coalesce fuel (release_block mgr proc.block_idx.toNat)
          ({ proc with status := ProcStatus.PROC_DONE, block_idx := -1 } :: rest)) := by
  unfold free_mem
  by_cases h : proc.block_idx = -1
  · left; exact ⟨h, by simp [h]⟩
  · right; exact ⟨h, by simp [h]⟩

/-- A property of the manager that `allocate_mem`, the release step and every
merge preserve, and that holds in the initial table, holds in every reachable
state. -/
theorem reachable_induction (cap : Int) (I : MemMgr → Prop)
    (hinit : ∀ mgr0 method, I (init_mem_mgr cap mgr0 method))
    (halloc : ∀ mgr proc, I mgr → I (allocate_mem mgr proc).2.1)
    (hrel : ∀ mgr idx, I mgr → I (release_block mgr idx))
    (hmerge : ∀ (mgr : MemMgr) (cells : List Proc) (k : Nat),
      k + 1 < mgr.num_blocks.toNat → BothFree mgr k → I mgr → I (merge_at mgr cells k).1) :
    ∀ mgr procs, Reachable cap mgr procs → I mgr := by
  intro mgr procs h
  induction h with
  | init mgr0 method procs _ => exact hinit mgr0 method
  | alloc mgr procs p proc _ _ ih => exact halloc mgr proc ih
  | free mgr procs fuel p proc r _ _ hfree ih =>
    rcases free_mem_cases fuel mgr proc (procs.drop (p + 1)) with ⟨_, h2⟩ | ⟨_, h2⟩
    · rw [h2] at hfree
      cases hfree
      exact ih
    · rw [h2] at hfree
      exact coalesce_preserves (fun m _ => I m) hmerge fuel _ _ r hfree (hrel mgr _ ih)

theorem total_size_init (cap : Int) (mgr0 : MemMgr) (method : AllocMethod) :
    total_size (init_mem_mgr cap mgr0 method) = cap := by
  simp [total_size, init_mem_mgr, List.range_succ]

/-- Contents of each slot after a split followed by `claim_block`. -/
theorem claim_split_segments (mgr : MemMgr) (proc : Proc) (k : Nat)
    (hk : k < mgr.num_blocks.toNat) (j : Nat) :
    (claim_block (split_block mgr k proc.req_size) proc (k : Int)).2.1.segments j =
      if j = k then ⟨(mgr.segments k).begin_addr, proc.req_size, false, proc.id⟩
      else if j = k + 1 then
        ⟨(mgr.segments k).begin_addr + proc.req_size,
          (mgr.segments k).chunk_size - proc.req_size, true, -1⟩
      else if k + 1 < j ∧ j ≤ mgr.num_blocks.toNat then mgr.segments (j - 1)
      else mgr.segments j := by
  rw [claim_block_segments]
  by_cases e : j = k
  · subst e
    simp [split_block_apply mgr j proc.req_size hk]
  · simp only [if_neg e, split_block_apply mgr k proc.req_size hk]

theorem noAdjacentFree_allocate_mem (mgr : MemMgr) (proc : Proc)
    (hI : NoAdjacentFree mgr) : NoAdjacentFree (allocate_mem mgr proc).2.1 := by
  by_cases h : Rejects mgr proc
  · rw [allocate_mem_of_rejects mgr proc h]; exact hI
  · obtain ⟨k, _, hkn, hq, _, hcase⟩ :=
      allocate_mem_success mgr proc ((allocate_mem_fst_true_iff mgr proc).mpr h)
    rcases hcase with ⟨_, _, heq⟩ | ⟨_, heq⟩
    · rw [heq]
      intro i hi hb
      have hn : (claim_block (split_block mgr k proc.req_size) proc (k : Int)).2.1.num_blocks
          = mgr.num_blocks + 1 := rfl
      rw [hn] at hi
      unfold BothFree at hb
      simp only [claim_split_segments mgr proc k hkn] at hb
      by_cases e1 : i = k
      · subst e1
        simp at hb
      · by_cases e2 : i + 1 = k
        · subst e2
          simp at hb
        · by_cases e3 : i = k + 1
          · subst e3
            have e4 : k + 1 + 1 ≠ k + 1 := by omega
            have e5 : k + 1 < k + 1 + 1 ∧ k + 1 + 1 ≤ mgr.num_blocks.toNat := by omega
            rw [if_neg e2, if_neg e4, if_pos e5] at hb
            exact hI k (by omega) ⟨hq.1, hb.2⟩
          · by_cases e4 : i < k
            · have e5 : ¬ (k + 1 < i ∧ i ≤ mgr.num_blocks.toNat) := by omega
              have e6 : i + 1 ≠ k + 1 := by omega
              have e7 : ¬ (k + 1 < i + 1 ∧ i + 1 ≤ mgr.num_blocks.toNat) := by omega
              rw [if_neg e1, if_neg e3, if_neg e5, if_neg e2, if_neg e6, if_neg e7] at hb
              exact hI i (by omega) hb
            · have e5 : k + 1 < i ∧ i ≤ mgr.num_blocks.toNat := by omega
              have e6 : i + 1 ≠ k + 1 := by omega
              have e7 : k + 1 < i + 1 ∧ i + 1 ≤ mgr.num_blocks.toNat := by omega
              rw [if_neg e1, if_neg e3, if_pos e5, if_neg e2, if_neg e6, if_pos e7] at hb
              have e8 : i - 1 + 1 = i := by omega
              have := hI (i - 1) (by omega)
              rw [BothFree, e8] at this
              exact this hb
    · rw [heq]
      intro i hi hb
      have hn : (claim_block mgr proc (k : Int)).2.1.num_blocks = mgr.num_blocks := rfl
      rw [hn] at hi
      unfold BothFree at hb
      simp only [claim_block_segments] at hb
      by_cases e1 : i = k
      · subst e1
        simp at hb
      · by_cases e2 : i + 1 = k
        · subst e2
          simp at hb
        · rw [if_neg e1, if_neg e2] at hb
          exact hI i hi hb

theorem noAdjacentFree_init (cap : Int) (mgr0 : MemMgr) (method : AllocMethod) :
    NoAdjacentFree (init_mem_mgr cap mgr0 method) := by
  intro i hi
  simp [init_mem_mgr] at hi

theorem reachable_noAdjacentFree (cap : Int) :
    ∀ mgr procs, Reachable cap mgr procs → NoAdjacentFree mgr := by
  intro mgr procs h
  induction h with
  | init mgr0 method procs _ => exact noAdjacentFree_init cap mgr0 method
  | alloc mgr procs p proc _ _ ih => exact noAdjacentFree_allocate_mem mgr proc ih
  | free mgr procs fuel p proc r _ _ hfree ih =>
    rcases free_mem_cases fuel mgr proc (procs.drop (p + 1)) with ⟨_, h2⟩ | ⟨_, h2⟩
    · rw [h2] at hfree
      cases hfree
      exact ih
    · rw [h2] at hfree
      exact coalesce_noAdjacentFree fuel _ _ r hfree

theorem release_block_num_blocks (mgr : MemMgr) (idx : Nat) :
    (release_block mgr idx).num_blocks = mgr.num_blocks := rfl

/-- With fuel above the number of blocks, `free_mem` returns. -/
theorem free_mem_terminates (fuel : Nat) (mgr : MemMgr) (proc : Proc) (rest : List Proc)
    (hf : mgr.num_blocks.toNat < fuel) :
    ∃ r, free_mem fuel mgr proc rest = some r := by
  rcases free_mem_cases fuel mgr proc rest with ⟨_, h2⟩ | ⟨_, h2⟩
  · exact ⟨_, h2⟩
  · rw [h2]
    exact coalesce_terminates fuel _ _ (by rw [release_block_num_blocks]; exact hf)

theorem reachable_call_allocate (cap : Int) (s : MemMgr × List Proc) (p : Nat)
    (h : Reachable cap s.1 s.2) :
    Reachable cap (call_allocate s p).1 (call_allocate s p).2 := by
  unfold call_allocate
  cases hp : s.2[p]? with
  | none => exact h
  | some proc => exact Reachable.alloc s.1 s.2 p proc h hp

theorem reachable_call_free (cap : Int) (fuel : Nat) (s : MemMgr × List Proc) (p : Nat)
    (h : Reachable cap s.1 s.2) :
    Reachable cap (call_free fuel s p).1 (call_free fuel s p).2 := by
  unfold call_free
  cases hp : s.2[p]? with
  | none => exact h
  | some proc =>
    simp only []
    cases hf : free_mem fuel s.1 proc (s.2.drop (p + 1)) with
    | none => exact h
    | some r => exact Reachable.free s.1 s.2 fuel p proc r h hp hf

theorem scenario_two_allocated_reachable :
    Reachable 100 scenario_two_allocated.1 scenario_two_allocated.2 := by
  unfold scenario_two_allocated
  apply reachable_call_allocate
  apply reachable_call_allocate
  exact Reachable.init blank_mgr AllocMethod.FIRST_APPROACH scenario_procs (by decide)

theorem scenario_hole_reused_reachable :
    Reachable 100 scenario_hole_reused.1 scenario_hole_reused.2 := by
  unfold scenario_hole_reused
  apply reachable_call_allocate
  apply reachable_call_free
  exact scenario_two_allocated_reachable

theorem total_size_eq_blocks_sum (mgr : MemMgr) :
    total_size mgr = (mgr.blocks.map MemBlock.chunk_size).sum := by
  simp [total_size, MemMgr.blocks, List.map_map]
  rfl

/-! ## Claims about reachable states -/

/-- Claim C1 (conservation).  In every state reachable from the initial table of
capacity `cap` by any finite sequence of `allocate_mem` and `free_mem` calls,
the sum of `chunk_size` over the first `num_blocks` segments equals `cap`, which
is also the value of `full_size`. -/
theorem conservation_of_pool_capacity (cap : Int) (mgr : MemMgr) (procs : List Proc)
    (h : Reachable cap mgr procs) :
    (mgr.blocks.map MemBlock.chunk_size).sum = cap ∧ mgr.full_size = cap := by
  rw [← total_size_eq_blocks_sum]
  refine reachable_induction cap (fun m => total_size m = cap ∧ m.full_size = cap)
    ?_ ?_ ?_ ?_ mgr procs h
  · intro mgr0 method
    exact ⟨total_size_init cap mgr0 method, rfl⟩
  · intro m proc hI
    exact ⟨by rw [total_size_allocate_mem]; exact hI.1,
      by rw [full_size_allocate_mem]; exact hI.2⟩
  · intro m idx hI
    exact ⟨by rw [total_size_release_block]; exact hI.1, hI.2⟩
  · intro m cells k hk _ hI
    exact ⟨by rw [total_size_merge_at m cells k hk]; exact hI.1, hI.2⟩


theorem conservation_of_pool_capacity_witness :
    (scenario_hole_reused.1.blocks.map MemBlock.chunk_size).sum = 100 ∧
      scenario_hole_reused.1.full_size = 100 :=
  conservation_of_pool_capacity 100 scenario_hole_reused.1 scenario_hole_reused.2
    scenario_hole_reused_reachable

/-- Claim C2 (no-adjacent-free fixpoint).  In every reachable state and for every
request cell `proc` (followed in memory by the cells `rest`), `free_mem`
returns once the fuel exceeds the number of blocks, and whenever it returns
there is no index `i` with `0 <= i < num_blocks - 1` such that segments `i` and
`i + 1` are both available. -/
theorem free_mem_no_adjacent_free (cap : Int) (mgr : MemMgr) (procs : List Proc)
    (h : Reachable cap mgr procs) (proc : Proc) (rest : List Proc) :
    (∀ fuel, mgr.num_blocks.toNat < fuel → ∃ r, free_mem fuel mgr proc rest = some r) ∧
    (∀ fuel r, free_mem fuel mgr proc rest = some r →
      ∀ i : Nat, (i : Int) < r.1.num_blocks - 1 →
        ¬ ((r.1.segments i).available = true ∧ (r.1.segments (i + 1)).available = true)) := by
  refine ⟨fun fuel hf => free_mem_terminates fuel mgr proc rest hf, ?_⟩
  intro fuel r hr i hi
  have hna : NoAdjacentFree r.1 := by
    rcases free_mem_cases fuel mgr proc rest with ⟨_, h2⟩ | ⟨_, h2⟩
    · rw [h2] at hr
      cases hr
      exact reachable_noAdjacentFree cap mgr procs h
    · rw [h2] at hr
      exact coalesce_noAdjacentFree fuel _ _ r hr
  exact hna i (by omega)


theorem free_mem_no_adjacent_free_witness :
    ∃ r, free_mem 4 scenario_two_allocated.1 ⟨2, 20, ProcStatus.PROC_ACTIVE, 1⟩
        [⟨3, 20, ProcStatus.PROC_NEW, -1⟩] = some r ∧ r.1.num_blocks = 2 ∧
      ¬ ((r.1.segments 0).available = true ∧ (r.1.segments (0 + 1)).available = true) := by
  have h := free_mem_no_adjacent_free 100 scenario_two_allocated.1 scenario_two_allocated.2
    scenario_two_allocated_reachable ⟨2, 20, ProcStatus.PROC_ACTIVE, 1⟩
    [⟨3, 20, ProcStatus.PROC_NEW, -1⟩]
  obtain ⟨r, hr⟩ := h.1 4 (by decide)
  have hn : (free_mem 4 scenario_two_allocated.1 ⟨2, 20, ProcStatus.PROC_ACTIVE, 1⟩
      [⟨3, 20, ProcStatus.PROC_NEW, -1⟩]).map (fun x => x.1.num_blocks) = some 2 := by decide
  rw [hr] at hn
  simp only [Option.map_some', Option.some.injEq] at hn
  exact ⟨r, hr, hn, h.2 4 r hr 0 (by rw [hn]; decide)⟩

/-- Claim C3 (weak-reference consistency), evaluated on a run the driver can
produce: capacity 100, first-fit, P1(40) and P2(20) allocated, P1 freed, P3(20)
allocated.  The split that places P3 in the hole left by P1 moves the block of
P2 from slot 1 to slot 2, but no request is renumbered: P2 is `PROC_ACTIVE`
with `block_idx = 1`, and slot 1 is the available remainder block owned by
nobody.  The state is reachable, the ids are distinct, and the consistency the
claim asserts fails in it. -/
theorem weak_reference_stale_after_split :
    Reachable 100 scenario_hole_reused.1 scenario_hole_reused.2 ∧
    (scenario_hole_reused.2.map Proc.id).Nodup ∧
    scenario_hole_reused.1.blocks =
      [⟨0, 20, false, 3⟩, ⟨20, 20, true, -1⟩, ⟨40, 20, false, 2⟩, ⟨60, 40, true, -1⟩] ∧
    scenario_hole_reused.2 =
      [⟨1, 40, ProcStatus.PROC_DONE, -1⟩, ⟨2, 20, ProcStatus.PROC_ACTIVE, 1⟩,
       ⟨3, 20, ProcStatus.PROC_ACTIVE, 0⟩] ∧
    ¬ RefsConsistent scenario_hole_reused.1 scenario_hole_reused.2 := by
  refine ⟨scenario_hole_reused_reachable, by decide, by decide, by decide, ?_⟩
  intro h
  have h2 := h ⟨2, 20, ProcStatus.PROC_ACTIVE, 1⟩ (by decide) rfl
  have h3 : (scenario_hole_reused.1.segments 1).available = true := by decide
  have h4 := h2.2.2.1
  simp only [] at h4
  rw [show ((1 : Int).toNat) = 1 from rfl] at h4
  rw [h3] at h4
  exact absurd h4 (by decide)

/-! ## Block-wise preservation -/

/-- A property of single blocks that holds for every block of the table still
holds after `allocate_mem` if it holds for the blocks the call writes. -/
theorem allocate_mem_blockwise (F : MemBlock → Prop) (mgr : MemMgr) (proc : Proc)
    (h : ∀ j, j < mgr.num_blocks.toNat → F (mgr.segments j))
    (hwhole : ∀ k, k < mgr.num_blocks.toNat → Qualifies mgr proc.req_size k →
      (mgr.segments k).chunk_size ≤ proc.req_size + 10 →
      F { mgr.segments k with available := false, proc_id := proc.id })
    (hhead : ∀ k, k < mgr.num_blocks.toNat → Qualifies mgr proc.req_size k →
      (mgr.segments k).chunk_size > proc.req_size + 10 →
      F ⟨(mgr.segments k).begin_addr, proc.req_size, false, proc.id⟩)
    (htail : ∀ k, k < mgr.num_blocks.toNat → Qualifies mgr proc.req_size k →
      (mgr.segments k).chunk_size > proc.req_size + 10 →
      F ⟨(mgr.segments k).begin_addr + proc.req_size,
        (mgr.segments k).chunk_size - proc.req_size, true, -1⟩) :
    ∀ j, j < (allocate_mem mgr proc).2.1.num_blocks.toNat →
      F ((allocate_mem mgr proc).2.1.segments j) := by
  by_cases hr : Rejects mgr proc
  · rw [allocate_mem_of_rejects mgr proc hr]; exact h
  · obtain ⟨k, _, hkn, hq, _, hcase⟩ :=
      allocate_mem_success mgr proc ((allocate_mem_fst_true_iff mgr proc).mpr hr)
    rcases hcase with ⟨hgt, _, heq⟩ | ⟨hle, heq⟩
    · rw [heq]
      intro j hj
      have hn : (claim_block (split_block mgr k proc.req_size) proc (k : Int)).2.1.num_blocks
          = mgr.num_blocks + 1 := rfl
      rw [hn] at hj
      rw [claim_split_segments mgr proc k hkn]
      by_cases e1 : j = k
      · rw [if_pos e1]; exact hhead k hkn hq hgt
      · by_cases e2 : j = k + 1
        · rw [if_neg e1, if_pos e2]; exact htail k hkn hq hgt
        · by_cases e3 : k + 1 < j ∧ j ≤ mgr.num_blocks.toNat
          · rw [if_neg e1, if_neg e2, if_pos e3]; exact h (j - 1) (by omega)
          · rw [if_neg e1, if_neg e2, if_neg e3]; exact h j (by omega)
    · rw [heq]
      intro j hj
      have hn : (claim_block mgr proc (k : Int)).2.1.num_blocks = mgr.num_blocks := rfl
      rw [hn] at hj
      rw [claim_block_segments]
      by_cases e1 : j = k
      · rw [if_pos e1]; exact hwhole k hkn hq hle
      · rw [if_neg e1]; exact h j hj

/-- Contents of each slot after the release step of `free_mem`. -/
theorem release_block_segments (mgr : MemMgr) (idx j : Nat) :
    (release_block mgr idx).segments j =
      if j = idx then { mgr.segments idx with available := true, proc_id := -1 }
      else mgr.segments j := by
  simp [release_block, Function.update_apply]

/-- A property of single blocks that holds for every block of the table still
holds after the release step if it holds for the released block. -/
theorem release_block_blockwise (F : MemBlock → Prop) (mgr : MemMgr) (idx : Nat)
    (h : ∀ j, j < mgr.num_blocks.toNat → F (mgr.segments j))
    (hrel : idx < mgr.num_blocks.toNat →
      F { mgr.segments idx with available := true, proc_id := -1 }) :
    ∀ j, j < (release_block mgr idx).num_blocks.toNat →
      F ((release_block mgr idx).segments j) := by
  intro j hj
  rw [release_block_num_blocks] at hj
  rw [release_block_segments]
  by_cases e : j = idx
  · rw [if_pos e]; exact hrel (by omega)
  · rw [if_neg e]; exact h j hj

/-- A property of single blocks that holds for every block of the table still
holds after a merge if it holds for the merged block. -/
theorem merge_at_blockwise (F : MemBlock → Prop) (mgr : MemMgr) (cells : List Proc) (i : Nat)
    (hi : i + 1 < mgr.num_blocks.toNat)
    (h : ∀ j, j < mgr.num_blocks.toNat → F (mgr.segments j))
    (hm : F { mgr.segments i with
      chunk_size := (mgr.segments i).chunk_size + (mgr.segments (i + 1)).chunk_size }) :
    ∀ j, j < (merge_at mgr cells i).1.num_blocks.toNat →
      F ((merge_at mgr cells i).1.segments j) := by
  intro j hj
  rw [merge_at_num_blocks] at hj
  rw [merge_at_segments mgr cells i hi]
  by_cases e1 : j = i
  · rw [if_pos e1]; exact hm
  · by_cases e2 : i < j ∧ j + 1 < mgr.num_blocks.toNat
    · rw [if_neg e1, if_pos e2]; exact h (j + 1) (by omega)
    · rw [if_neg e1, if_neg e2]; exact h j (by omega)

theorem blockCountOk_allocate_mem (mgr : MemMgr) (proc : Proc) (h : BlockCountOk mgr) :
    BlockCountOk (allocate_mem mgr proc).2.1 := by
  by_cases hr : Rejects mgr proc
  · rw [allocate_mem_of_rejects mgr proc hr]; exact h
  · obtain ⟨k, _, hkn, hq, _, hcase⟩ :=
      allocate_mem_success mgr proc ((allocate_mem_fst_true_iff mgr proc).mpr hr)
    rcases hcase with ⟨_, hlt, heq⟩ | ⟨_, heq⟩
    · rw [heq]
      have hn : (claim_block (split_block mgr k proc.req_size) proc (k : Int)).2.1.num_blocks
          = mgr.num_blocks + 1 := rfl
      unfold BlockCountOk at *
      rw [hn]
      constructor <;> omega
    · rw [heq]; exact h

theorem blockCountOk_merge_at (mgr : MemMgr) (cells : List Proc) (i : Nat)
    (hi : i + 1 < mgr.num_blocks.toNat) (h : BlockCountOk mgr) :
    BlockCountOk (merge_at mgr cells i).1 := by
  unfold BlockCountOk at *
  rw [merge_at_num_blocks]
  constructor <;> omega

theorem reachable_blockCountOk (cap : Int) (mgr : MemMgr) (procs : List Proc)
    (h : Reachable cap mgr procs) : BlockCountOk mgr :=
  reachable_induction cap BlockCountOk
    (fun _ _ => ⟨le_refl _, (by decide : (1 : Int) ≤ MAX_MEM_BLKS)⟩)
    (fun m proc hI => blockCountOk_allocate_mem m proc hI)
    (fun _ _ hI => hI)
    (fun m cells k hk _ hI => blockCountOk_merge_at m cells k hk hI)
    mgr procs h


/-- Claim C20 (block-count bound).  In every state reachable from the initial
table by `allocate_mem` and `free_mem` calls, `1 <= num_blocks <= MAX_MEM_BLKS`;
hence a further `allocate_mem` call on any request leaves every slot at an
index of `MAX_MEM_BLKS` or more as it was (the split writes inside the array),
and when the chosen block needs a split while `num_blocks >= MAX_MEM_BLKS` the
call returns false and changes nothing. -/
theorem block_count_bound (cap : Int) (mgr : MemMgr) (procs : List Proc)
    (h : Reachable cap mgr procs) :
    1 ≤ mgr.num_blocks ∧ mgr.num_blocks ≤ MAX_MEM_BLKS ∧
    (∀ (proc : Proc) (j : Nat), MAX_MEM_BLKS ≤ (j : Int) →
      (allocate_mem mgr proc).2.1.segments j = mgr.segments j) ∧
    (∀ proc : Proc,
      (mgr.segments (select_block mgr proc.req_size).toNat).chunk_size > proc.req_size + 10 →
      mgr.num_blocks ≥ MAX_MEM_BLKS → allocate_mem mgr proc = (false, mgr, proc)) := by
  have hI := reachable_blockCountOk cap mgr procs h
  refine ⟨hI.1, hI.2, ?_, ?_⟩
  · intro proc j hj
    have hM : MAX_MEM_BLKS = 100 := rfl
    have hn := hI.2
    by_cases hr : Rejects mgr proc
    · rw [allocate_mem_of_rejects mgr proc hr]
    · obtain ⟨k, _, hkn, _, _, hcase⟩ :=
        allocate_mem_success mgr proc ((allocate_mem_fst_true_iff mgr proc).mpr hr)
      rcases hcase with ⟨_, hlt, heq⟩ | ⟨_, heq⟩
      · rw [heq, claim_split_segments mgr proc k hkn]
        have e1 : j ≠ k := by omega
        have e2 : j ≠ k + 1 := by omega
        have e3 : ¬ (k + 1 < j ∧ j ≤ mgr.num_blocks.toNat) := by omega
        rw [if_neg e1, if_neg e2, if_neg e3]
      · rw [heq, claim_block_segments]
        have e1 : j ≠ k := by omega
        rw [if_neg e1]
  · intro proc hgt hfull
    exact allocate_mem_of_rejects mgr proc (Or.inr (Or.inr ⟨hgt, hfull⟩))

theorem block_count_bound_witness :
    1 ≤ scenario_hole_reused.1.num_blocks ∧
      scenario_hole_reused.1.num_blocks ≤ MAX_MEM_BLKS :=
  ⟨(block_count_bound 100 scenario_hole_reused.1 scenario_hole_reused.2
      scenario_hole_reused_reachable).1,
   (block_count_bound 100 scenario_hole_reused.1 scenario_hole_reused.2
      scenario_hole_reused_reachable).2.1⟩

/-! ## Contiguity -/

theorem contiguous_allocate_mem (mgr : MemMgr) (proc : Proc) (hI : Contiguous mgr) :
    Contiguous (allocate_mem mgr proc).2.1 := by
  by_cases h : Rejects mgr proc
  · rw [allocate_mem_of_rejects mgr proc h]; exact hI
  · obtain ⟨k, _, hkn, hq, _, hcase⟩ :=
      allocate_mem_success mgr proc ((allocate_mem_fst_true_iff mgr proc).mpr h)
    rcases hcase with ⟨_, _, heq⟩ | ⟨_, heq⟩
    · rw [heq]
      intro i hi
      have hn : (claim_block (split_block mgr k proc.req_size) proc (k : Int)).2.1.num_blocks
          = mgr.num_blocks + 1 := rfl
      rw [hn] at hi
      simp only [claim_split_segments mgr proc k hkn]
      by_cases e1 : i = k
      · subst e1
        simp
      · by_cases e2 : i + 1 = k
        · subst e2
          have e3 : i ≠ i + 1 + 1 := by omega
          have e4 : ¬ (i + 1 + 1 < i ∧ i ≤ mgr.num_blocks.toNat) := by omega
          rw [if_pos rfl, if_neg e1, if_neg e3, if_neg e4]
          exact hI i (by omega)
        · by_cases e3 : i = k + 1
          · subst e3
            have e4 : k + 1 + 1 ≠ k := by omega
            have e5 : k + 1 + 1 ≠ k + 1 := by omega
            have e6 : k + 1 < k + 1 + 1 ∧ k + 1 + 1 ≤ mgr.num_blocks.toNat := by omega
            rw [if_neg e4, if_neg e5, if_pos e6, if_neg e1, if_pos rfl]
            have := hI k (by omega)
            simp only [Nat.add_sub_cancel]
            rw [this]
            show _ = (mgr.segments k).begin_addr + proc.req_size
              + ((mgr.segments k).chunk_size - proc.req_size)
            omega
          · by_cases e4 : i < k
            · have e5 : ¬ (k + 1 < i ∧ i ≤ mgr.num_blocks.toNat) := by omega
              have e6 : i + 1 ≠ k + 1 := by omega
              have e7 : ¬ (k + 1 < i + 1 ∧ i + 1 ≤ mgr.num_blocks.toNat) := by omega
              rw [if_neg e2, if_neg e6, if_neg e7, if_neg e1, if_neg e3, if_neg e5]
              exact hI i (by omega)
            · have e5 : k + 1 < i ∧ i ≤ mgr.num_blocks.toNat := by omega
              have e6 : i + 1 ≠ k + 1 := by omega
              have e7 : k + 1 < i + 1 ∧ i + 1 ≤ mgr.num_blocks.toNat := by omega
              rw [if_neg e2, if_neg e6, if_pos e7, if_neg e1, if_neg e3, if_pos e5]
              have e8 : i - 1 + 1 = i := by omega
              have := hI (i - 1) (by omega)
              rw [e8] at this
              simpa using this
    · rw [heq]
      intro i hi
      have hn : (claim_block mgr proc (k : Int)).2.1.num_blocks = mgr.num_blocks := rfl
      rw [hn] at hi
      simp only [claim_block_segments]
      have := hI i hi
      by_cases e1 : i = k
      · by_cases e2 : i + 1 = k
        · omega
        · rw [if_neg e2, if_pos e1]; subst e1; exact this
      · by_cases e2 : i + 1 = k
        · rw [if_pos e2, if_neg e1]; subst e2; exact this
        · rw [if_neg e2, if_neg e1]; exact this

theorem contiguous_release_block (mgr : MemMgr) (idx : Nat) (hI : Contiguous mgr) :
    Contiguous (release_block mgr idx) := by
  intro i hi
  rw [release_block_num_blocks] at hi
  simp only [release_block_segments]
  have := hI i hi
  by_cases e1 : i = idx
  · by_cases e2 : i + 1 = idx
    · omega
    · rw [if_neg e2, if_pos e1]; subst e1; exact this
  · by_cases e2 : i + 1 = idx
    · rw [if_pos e2, if_neg e1]; subst e2; exact this
    · rw [if_neg e2, if_neg e1]; exact this

theorem contiguous_merge_at (mgr : MemMgr) (cells : List Proc) (k : Nat)
    (hk : k + 1 < mgr.num_blocks.toNat) (hI : Contiguous mgr) :
    Contiguous (merge_at mgr cells k).1 := by
  intro i hi
  rw [merge_at_num_blocks] at hi
  simp only [merge_at_segments mgr cells k hk]
  by_cases e1 : i = k
  · subst e1
    have e2 : i + 1 ≠ i := by omega
    have e3 : i < i + 1 ∧ i + 1 + 1 < mgr.num_blocks.toNat := by omega
    rw [if_neg e2, if_pos e3, if_pos rfl]
    have h1 := hI i (by omega)
    have h2 := hI (i + 1) (by omega)
    show _ = (mgr.segments i).begin_addr
      + ((mgr.segments i).chunk_size + (mgr.segments (i + 1)).chunk_size)
    omega
  · by_cases e2 : i + 1 = k
    · subst e2
      have e3 : ¬ (i + 1 < i ∧ i + 1 < mgr.num_blocks.toNat) := by omega
      rw [if_pos rfl, if_neg e1, if_neg e3]
      exact hI i (by omega)
    · by_cases e3 : i < k
      · have e4 : ¬ (k < i + 1 ∧ i + 1 + 1 < mgr.num_blocks.toNat) := by omega
        have e5 : ¬ (k < i ∧ i + 1 < mgr.num_blocks.toNat) := by omega
        rw [if_neg e2, if_neg e4, if_neg e1, if_neg e5]
        exact hI i (by omega)
      · have e4 : k < i + 1 ∧ i + 1 + 1 < mgr.num_blocks.toNat := by omega
        have e5 : k < i ∧ i + 1 < mgr.num_blocks.toNat := by omega
        rw [if_neg e2, if_pos e4, if_neg e1, if_pos e5]
        exact hI (i + 1) (by omega)

theorem contiguous_init (cap : Int) (mgr0 : MemMgr) (method : AllocMethod) :
    Contiguous (init_mem_mgr cap mgr0 method) := by
  intro i hi
  have : i + 1 < 1 := hi
  omega

theorem reachable_contiguous (cap : Int) (mgr : MemMgr) (procs : List Proc)
    (h : Reachable cap mgr procs) : Contiguous mgr :=
  reachable_induction cap Contiguous
    (fun mgr0 method => contiguous_init cap mgr0 method)
    (fun m proc hI => contiguous_allocate_mem m proc hI)
    (fun m idx hI => contiguous_release_block m idx hI)
    (fun m cells k hk _ hI => contiguous_merge_at m cells k hk hI)
    mgr procs h

/-! ## The first block starts at address 0 -/

theorem first_begin_allocate_mem (mgr : MemMgr) (proc : Proc) :
    ((allocate_mem mgr proc).2.1.segments 0).begin_addr = (mgr.segments 0).begin_addr := by
  by_cases h : Rejects mgr proc
  · rw [allocate_mem_of_rejects mgr proc h]
  · obtain ⟨k, _, hkn, hq, _, hcase⟩ :=
      allocate_mem_success mgr proc ((allocate_mem_fst_true_iff mgr proc).mpr h)
    rcases hcase with ⟨_, _, heq⟩ | ⟨_, heq⟩
    · rw [heq, claim_split_segments mgr proc k hkn]
      by_cases e1 : 0 = k
      · subst e1; simp
      · have e2 : (0 : Nat) ≠ k + 1 := by omega
        have e3 : ¬ (k + 1 < 0 ∧ 0 ≤ mgr.num_blocks.toNat) := by omega
        rw [if_neg e1, if_neg e2, if_neg e3]
    · rw [heq, claim_block_segments]
      by_cases e1 : 0 = k
      · subst e1; simp
      · rw [if_neg e1]

theorem first_begin_release_block (mgr : MemMgr) (idx : Nat) :
    ((release_block mgr idx).segments 0).begin_addr = (mgr.segments 0).begin_addr := by
  rw [release_block_segments]
  by_cases e1 : 0 = idx
  · subst e1; simp
  · rw [if_neg e1]

theorem first_begin_merge_at (mgr : MemMgr) (cells : List Proc) (k : Nat)
    (hk : k + 1 < mgr.num_blocks.toNat) :
    ((merge_at mgr cells k).1.segments 0).begin_addr = (mgr.segments 0).begin_addr := by
  rw [merge_at_segments mgr cells k hk]
  by_cases e1 : 0 = k
  · subst e1; simp
  · have e2 : ¬ (k < 0 ∧ 0 + 1 < mgr.num_blocks.toNat) := by omega
    rw [if_neg e1, if_neg e2]

theorem reachable_first_begin (cap : Int) (mgr : MemMgr) (procs : List Proc)
    (h : Reachable cap mgr procs) : (mgr.segments 0).begin_addr = 0 :=
  reachable_induction cap (fun m => (m.segments 0).begin_addr = 0)
    (fun mgr0 method => by simp [init_mem_mgr])
    (fun m proc hI => (first_begin_allocate_mem m proc).trans hI)
    (fun m idx hI => (first_begin_release_block m idx).trans hI)
    (fun m cells k hk _ hI => (first_begin_merge_at m cells k hk).trans hI)
    mgr procs h

/-- Claim C15 (contiguity and order).  In every reachable state the first
segment has `begin_addr = 0` and for every `i` with `0 <= i < num_blocks - 1`,
`begin_addr(i+1) = begin_addr(i) + chunk_size(i)`: no gaps and no overlaps.
Hence, when the sizes of the blocks are positive, the start addresses are
strictly ascending. -/
theorem contiguity_and_order (cap : Int) (mgr : MemMgr) (procs : List Proc)
    (h : Reachable cap mgr procs) :
    (mgr.segments 0).begin_addr = 0 ∧
    (∀ i : Nat, (i : Int) < mgr.num_blocks - 1 →
      (mgr.segments (i + 1)).begin_addr
        = (mgr.segments i).begin_addr + (mgr.segments i).chunk_size) ∧
    ((∀ j : Nat, (j : Int) < mgr.num_blocks → 0 < (mgr.segments j).chunk_size) →
      ∀ i : Nat, (i : Int) < mgr.num_blocks - 1 →
        (mgr.segments i).begin_addr < (mgr.segments (i + 1)).begin_addr) := by
  have hc := reachable_contiguous cap mgr procs h
  refine ⟨reachable_first_begin cap mgr procs h, fun i hi => hc i (by omega), ?_⟩
  intro hpos i hi
  have h1 := hc i (by omega)
  have h2 := hpos i (by omega)
  omega

theorem contiguity_and_order_witness :
    (scenario_hole_reused.1.segments 0).begin_addr = 0 ∧
    (scenario_hole_reused.1.segments (2 + 1)).begin_addr
      = (scenario_hole_reused.1.segments 2).begin_addr
        + (scenario_hole_reused.1.segments 2).chunk_size :=
  ⟨(contiguity_and_order 100 scenario_hole_reused.1 scenario_hole_reused.2
      scenario_hole_reused_reachable).1,
   (contiguity_and_order 100 scenario_hole_reused.1 scenario_hole_reused.2
      scenario_hole_reused_reachable).2.1 2 (by decide)⟩

/-! ## Building guarded runs -/

theorem reachableWhen_call_allocate (cap : Int) (ok : Proc → Prop) (s : MemMgr × List Proc)
    (p : Nat) (h : ReachableWhen cap ok s.1 s.2) (hok : ∀ q, s.2[p]? = some q → ok q) :
    ReachableWhen cap ok (call_allocate s p).1 (call_allocate s p).2 := by
  unfold call_allocate
  cases hp : s.2[p]? with
  | none => exact h
  | some proc => exact ReachableWhen.alloc s.1 s.2 p proc h hp (hok proc hp)

theorem reachableWhen_call_free (cap : Int) (ok : Proc → Prop) (fuel : Nat)
    (s : MemMgr × List Proc) (p : Nat) (h : ReachableWhen cap ok s.1 s.2) :
    ReachableWhen cap ok (call_free fuel s p).1 (call_free fuel s p).2 := by
  unfold call_free
  cases hp : s.2[p]? with
  | none => exact h
  | some proc =>
    simp only []
    cases hf : free_mem fuel s.1 proc (s.2.drop (p + 1)) with
    | none => exact h
    | some r => exact ReachableWhen.free s.1 s.2 fuel p proc r h hp hf

/-- The guard a scenario has to meet: each request of `scenario_procs` has a
positive size, and is allocated while `PROC_NEW`. -/
theorem scenario_hole_reused_reachableWhen (ok : Proc → Prop)
    (h1 : ok ⟨1, 40, ProcStatus.PROC_NEW, -1⟩) (h2 : ok ⟨2, 20, ProcStatus.PROC_NEW, -1⟩)
    (h3 : ok ⟨3, 20, ProcStatus.PROC_NEW, -1⟩) :
    ReachableWhen 100 ok scenario_hole_reused.1 scenario_hole_reused.2 := by
  unfold scenario_hole_reused
  apply reachableWhen_call_allocate
  · apply reachableWhen_call_free
    unfold scenario_two_allocated
    apply reachableWhen_call_allocate
    · apply reachableWhen_call_allocate
      · exact ReachableWhen.init blank_mgr AllocMethod.FIRST_APPROACH scenario_procs
          (by decide)
      · intro q hq
        have e : scenario_procs[0]? = some ⟨1, 40, ProcStatus.PROC_NEW, -1⟩ := by decide
        rw [show (init_mem_mgr 100 blank_mgr AllocMethod.FIRST_APPROACH, scenario_procs).2
          = scenario_procs from rfl, e] at hq
        cases hq
        exact h1
    · intro q hq
      have e : (call_allocate (init_mem_mgr 100 blank_mgr AllocMethod.FIRST_APPROACH,
          scenario_procs) 0).2[1]? = some ⟨2, 20, ProcStatus.PROC_NEW, -1⟩ := by decide
      rw [e] at hq
      cases hq
      exact h2
  · intro q hq
    have e : (call_free 4 scenario_two_allocated 0).2[2]?
        = some ⟨3, 20, ProcStatus.PROC_NEW, -1⟩ := by decide
    rw [e] at hq
    cases hq
    exact h3

theorem renumber_cons (c : Nat) (i : Int) (p : Proc) (cells : List Proc) :
    renumber (c + 1) i (p :: cells) =
      (if p.block_idx > i + 1 then { p with block_idx := p.block_idx - 1 } else p)
        :: renumber c i cells := rfl

/-- A cell whose `block_idx` is `-1` at the head of the cells is left alone by
the renumbering loop of a merge. -/
theorem merge_at_head (mgr : MemMgr) (p : Proc) (cells : List Proc) (i : Nat)
    (hp : p.block_idx = -1) :
    ∃ rest1, (merge_at mgr (p :: cells) i).2 = p :: rest1 := by
  refine ⟨renumber 19 (i : Int) cells, ?_⟩
  have e : (merge_at mgr (p :: cells) i).2 = renumber (19 + 1) (i : Int) (p :: cells) := rfl
  rw [e, renumber_cons]
  have : ¬ p.block_idx > (i : Int) + 1 := by omega
  rw [if_neg this]

theorem coalesce_head (p : Proc) (hp : p.block_idx = -1) :
    ∀ (fuel : Nat) (mgr : MemMgr) (cells : List Proc) (r : MemMgr × List Proc),
      coalesce fuel mgr cells = some r → (∃ rest0, cells = p :: rest0) →
      ∃ rest1, r.2 = p :: rest1 := by
  apply coalesce_preserves (fun _ cells => ∃ rest0, cells = p :: rest0)
  intro mgr cells k _ _ ⟨rest0, h0⟩
  rw [h0]
  exact merge_at_head mgr p rest0 k hp

/-- When `free_mem` returns, the cell it was called on is at the head of the
returned cells with `block_idx = -1`. -/
theorem free_mem_head (fuel : Nat) (mgr : MemMgr) (proc : Proc) (rest : List Proc)
    (r : MemMgr × List Proc) (h : free_mem fuel mgr proc rest = some r) :
    ∃ p1 rest1, r.2 = p1 :: rest1 ∧ p1.block_idx = -1 := by
  rcases free_mem_cases fuel mgr proc rest with ⟨h1, h2⟩ | ⟨_, h2⟩
  · rw [h2] at h
    cases h
    exact ⟨proc, rest, rfl, h1⟩
  · rw [h2] at h
    obtain ⟨rest1, h3⟩ := coalesce_head
      { proc with status := ProcStatus.PROC_DONE, block_idx := -1 } rfl fuel _ _ r h
      ⟨rest, rfl⟩
    exact ⟨_, rest1, h3, rfl⟩

/-- Claim C12 (idempotent free).  `free_mem` on a request whose `block_idx` is
`-1` returns at once and changes nothing in the manager or in any request cell.
Consequently, for every state and request, the request cell that a returning
call of `free_mem` leaves behind has `block_idx = -1`, and a second call on it
returns exactly the manager and the cells the first call produced. -/
theorem free_mem_idempotent :
    (∀ (fuel : Nat) (mgr : MemMgr) (proc : Proc) (rest : List Proc),
      proc.block_idx = -1 → free_mem fuel mgr proc rest = some (mgr, proc :: rest)) ∧
    (∀ (fuel : Nat) (mgr : MemMgr) (proc : Proc) (rest : List Proc) (r : MemMgr × List Proc),
      free_mem fuel mgr proc rest = some r →
      ∃ p1 rest1, r.2 = p1 :: rest1 ∧ p1.block_idx = -1 ∧
        ∀ fuel1, free_mem fuel1 r.1 p1 rest1 = some r) := by
  constructor
  · intro fuel mgr proc rest h
    simp [free_mem, h]
  · intro fuel mgr proc rest r h
    obtain ⟨p1, rest1, h1, h2⟩ := free_mem_head fuel mgr proc rest r h
    refine ⟨p1, rest1, h1, h2, ?_⟩
    intro fuel1
    have e : r = (r.1, p1 :: rest1) := by rw [← h1]
    rw [show free_mem fuel1 r.1 p1 rest1 = some (r.1, p1 :: rest1) by simp [free_mem, h2]]
    rw [← e]

theorem free_mem_idempotent_witness :
    ∃ r, free_mem 4 scenario_two_allocated.1 ⟨2, 20, ProcStatus.PROC_ACTIVE, 1⟩
        [⟨3, 20, ProcStatus.PROC_NEW, -1⟩] = some r ∧
      ∃ p1 rest1, r.2 = p1 :: rest1 ∧ p1.block_idx = -1 ∧
        free_mem 4 r.1 p1 rest1 = some r := by
  obtain ⟨r, hr⟩ := free_mem_terminates 4 scenario_two_allocated.1
    ⟨2, 20, ProcStatus.PROC_ACTIVE, 1⟩ [⟨3, 20, ProcStatus.PROC_NEW, -1⟩] (by decide)
  obtain ⟨p1, rest1, h1, h2, h3⟩ := free_mem_idempotent.2 4 scenario_two_allocated.1
    ⟨2, 20, ProcStatus.PROC_ACTIVE, 1⟩ [⟨3, 20, ProcStatus.PROC_NEW, -1⟩] r hr
  exact ⟨r, hr, p1, rest1, h1, h2, h3 4⟩

/-! ## Where the released range ends up -/

theorem freeUnowned_release_block (mgr : MemMgr) (idx : Nat) (h : FreeUnowned mgr) :
    FreeUnowned (release_block mgr idx) :=
  release_block_blockwise (fun b => b.available = true → b.proc_id = -1) mgr idx h
    (fun _ _ => rfl)

theorem freeUnowned_merge_at (mgr : MemMgr) (cells : List Proc) (i : Nat)
    (hi : i + 1 < mgr.num_blocks.toNat) (h : FreeUnowned mgr) :
    FreeUnowned (merge_at mgr cells i).1 :=
  merge_at_blockwise (fun b => b.available = true → b.proc_id = -1) mgr cells i hi h
    (fun ha => h i (by omega) ha)

theorem scenario_after_merge_reachable :
    Reachable 100 scenario_after_merge.1 scenario_after_merge.2 := by
  unfold scenario_after_merge scenario_before_merge
  apply reachable_call_free
  apply reachable_call_free
  apply reachable_call_allocate
  apply reachable_call_allocate
  apply reachable_call_allocate
  exact Reachable.init blank_mgr AllocMethod.FIRST_APPROACH equal_procs (by decide)

/-- Claim C13 (renumbering on merge), evaluated on a sequence of calls.  Before
the call `free_mem(mgr, &procs[2])` the table is
`[free:20][P3:20][P1:20][free:40]` and P1, stored at position 0 of the request
array, is `PROC_ACTIVE` with `block_idx = 2`.  The call merges blocks 0 and 1,
removing position 1, and the block of P1 moves to slot 1.  The renumbering loop
indexes the requests from the cell of P3 onwards, so P1 is not visited: its
`block_idx` is still 2, which is greater than the removed position and was not
decremented, and slot 2 is now a free block. -/
theorem renumbering_skips_earlier_requests :
    Reachable 100 scenario_after_merge.1 scenario_after_merge.2 ∧
    scenario_before_merge.1.blocks =
      [⟨0, 20, true, -1⟩, ⟨20, 20, false, 3⟩, ⟨40, 20, false, 1⟩, ⟨60, 40, true, -1⟩] ∧
    scenario_before_merge.2 =
      [⟨1, 20, ProcStatus.PROC_ACTIVE, 2⟩, ⟨2, 20, ProcStatus.PROC_DONE, -1⟩,
       ⟨3, 20, ProcStatus.PROC_ACTIVE, 1⟩] ∧
    scenario_after_merge.1.blocks =
      [⟨0, 40, true, -1⟩, ⟨40, 20, false, 1⟩, ⟨60, 40, true, -1⟩] ∧
    scenario_after_merge.2 =
      [⟨1, 20, ProcStatus.PROC_ACTIVE, 2⟩, ⟨2, 20, ProcStatus.PROC_DONE, -1⟩,
       ⟨3, 20, ProcStatus.PROC_DONE, -1⟩] :=
  ⟨scenario_after_merge_reachable, by decide, by decide, by decide, by decide⟩

theorem scenario_whole_block_reachableWhen :
    ReachableWhen 100 (fun q => 0 < q.req_size) scenario_whole_block.1
      scenario_whole_block.2 := by
  unfold scenario_whole_block
  apply reachableWhen_call_allocate
  · exact ReachableWhen.init blank_mgr AllocMethod.FIRST_APPROACH _ (by decide)
  · intro q hq
    cases hq
    decide

/-- Claim C14 (total free size), evaluated on a run: capacity 100, one request of
size 95 (greater than 0), allocated.  The leftover 5 does not exceed the split
threshold, so the whole block of 100 is handed out and no block is available:
the sum of `chunk_size` over the available segments is 0, while `avail_size`,
charged `req_size`, is 5. -/
theorem avail_size_differs_from_free_total :
    ReachableWhen 100 (fun q => 0 < q.req_size) scenario_whole_block.1
      scenario_whole_block.2 ∧
    scenario_whole_block.1.blocks = [⟨0, 100, false, 1⟩] ∧
    scenario_whole_block.1.avail_size = 5 ∧
    free_total scenario_whole_block.1 = 0 :=
  ⟨scenario_whole_block_reachableWhen, by decide, by decide, by decide⟩

/-- Claim C19 (end-to-end scenario).  From the initial table of capacity 100
under best-fit: allocating P1(30) yields `[used:30][free:70]`; allocating P2(20)
yields `[used:30][used:20][free:50]`; freeing P1 yields
`[free:30][used:20][free:50]` with no merge; freeing P2 yields the single block
`[free:100]` at address 0. -/
theorem end_to_end_scenario :
    end_to_end_1.1.blocks = [⟨0, 30, false, 1⟩, ⟨30, 70, true, -1⟩] ∧
    end_to_end_2.1.blocks = [⟨0, 30, false, 1⟩, ⟨30, 20, false, 2⟩, ⟨50, 50, true, -1⟩] ∧
    end_to_end_3.1.blocks = [⟨0, 30, true, -1⟩, ⟨30, 20, false, 2⟩, ⟨50, 50, true, -1⟩] ∧
    end_to_end_4.1.blocks = [⟨0, 100, true, -1⟩] ∧
    end_to_end_4.2 =
      [⟨1, 30, ProcStatus.PROC_DONE, -1⟩, ⟨2, 20, ProcStatus.PROC_DONE, -1⟩] :=
  ⟨by decide, by decide, by decide, by decide, by decide⟩

/-! ## Ownership -/

theorem tableOwn_mono (S T : Int → Prop) (mgr : MemMgr) (hST : ∀ x, S x → T x)
    (h : TableOwn S mgr) : TableOwn T mgr :=
  ⟨h.1, h.2.1, fun j hj hp => hST _ (h.2.2.1 j hj hp), h.2.2.2⟩

theorem tableOwn_init (S : Int → Prop) (cap : Int) (mgr0 : MemMgr) (method : AllocMethod) :
    TableOwn S (init_mem_mgr cap mgr0 method) := by
  have hn : ∀ j, j < (init_mem_mgr cap mgr0 method).num_blocks.toNat → j = 0 := by
    intro j hj
    have : j < 1 := hj
    omega
  refine ⟨?_, ?_, ?_, ?_⟩
  · intro j hj _
    rw [hn j hj]
    simp [init_mem_mgr]
  · intro j hj ha
    rw [hn j hj] at ha
    simp [init_mem_mgr] at ha
  · intro j hj hp
    rw [hn j hj] at hp
    simp [init_mem_mgr] at hp
  · intro j1 j2 h1 h2 _ _
    rw [hn j1 h1, hn j2 h2]

theorem tableOwn_release_block (S : Int → Prop) (mgr : MemMgr) (idx : Nat)
    (h : TableOwn S mgr) : TableOwn S (release_block mgr idx) := by
  obtain ⟨t1, t2, t3, t4⟩ := h
  have hb := release_block_blockwise
    (fun b => (b.available = true → b.proc_id = -1) ∧
      (b.available = false → b.proc_id ≠ -1) ∧ (b.proc_id ≠ -1 → S b.proc_id))
    mgr idx (fun j hj => ⟨t1 j hj, t2 j hj, t3 j hj⟩)
    (fun _ => ⟨fun _ => rfl, fun ha => by simp at ha, fun hp => absurd rfl hp⟩)
  refine ⟨fun j hj => (hb j hj).1, fun j hj => (hb j hj).2.1, fun j hj => (hb j hj).2.2, ?_⟩
  intro j1 j2 h1 h2 he hp
  rw [release_block_num_blocks] at h1 h2
  rw [release_block_segments] at he hp
  rw [release_block_segments] at he
  by_cases e1 : j1 = idx
  · rw [if_pos e1] at hp
    exact absurd rfl hp
  · rw [if_neg e1] at he hp
    by_cases e2 : j2 = idx
    · rw [if_pos e2] at he
      exact absurd he hp
    · rw [if_neg e2] at he
      exact t4 j1 j2 h1 h2 he hp

/-- A block of the table after a merge that has an owner is an unchanged block
of the table before it. -/
theorem merge_at_owned_source (S : Int → Prop) (mgr : MemMgr) (cells : List Proc) (k : Nat)
    (hk : k + 1 < mgr.num_blocks.toNat) (hb : BothFree mgr k) (h : TableOwn S mgr)
    (j : Nat) (hj : j < (merge_at mgr cells k).1.num_blocks.toNat)
    (hp : ((merge_at mgr cells k).1.segments j).proc_id ≠ -1) :
    ∃ j0, j0 < mgr.num_blocks.toNat ∧ (merge_at mgr cells k).1.segments j = mgr.segments j0 ∧
      ((j < k ∧ j0 = j) ∨ (k < j ∧ j0 = j + 1)) := by
  rw [merge_at_num_blocks] at hj
  rw [merge_at_segments mgr cells k hk] at hp ⊢
  by_cases e1 : j = k
  · rw [if_pos e1] at hp
    exact absurd (h.1 k (by omega) hb.1) hp
  · by_cases e2 : k < j ∧ j + 1 < mgr.num_blocks.toNat
    · rw [if_neg e1, if_pos e2]
      exact ⟨j + 1, by omega, rfl, Or.inr ⟨by omega, rfl⟩⟩
    · rw [if_neg e1, if_neg e2]
      exact ⟨j, by omega, rfl, Or.inl ⟨by omega, rfl⟩⟩

theorem tableOwn_merge_at (S : Int → Prop) (mgr : MemMgr) (cells : List Proc) (k : Nat)
    (hk : k + 1 < mgr.num_blocks.toNat) (hb : BothFree mgr k) (h : TableOwn S mgr) :
    TableOwn S (merge_at mgr cells k).1 := by
  have hbw := merge_at_blockwise
    (fun b => (b.available = true → b.proc_id = -1) ∧
      (b.available = false → b.proc_id ≠ -1) ∧ (b.proc_id ≠ -1 → S b.proc_id))
    mgr cells k hk (fun j hj => ⟨h.1 j hj, h.2.1 j hj, h.2.2.1 j hj⟩)
    ⟨fun ha => h.1 k (by omega) ha, fun ha => h.2.1 k (by omega) ha,
      fun hp => h.2.2.1 k (by omega) hp⟩
  refine ⟨fun j hj => (hbw j hj).1, fun j hj => (hbw j hj).2.1,
    fun j hj => (hbw j hj).2.2, ?_⟩
  intro j1 j2 h1 h2 he hp
  obtain ⟨a, ha, hsa, hca⟩ := merge_at_owned_source S mgr cells k hk hb h j1 h1 hp
  obtain ⟨b, hbn, hsb, hcb⟩ := merge_at_owned_source S mgr cells k hk hb h j2 h2
    (by rw [← he]; exact hp)
  rw [hsa, hsb] at he
  rw [hsa] at hp
  have := h.2.2.2 a b ha hbn he hp
  omega

theorem coalesce_tableOwn (S : Int → Prop) :
    ∀ (fuel : Nat) (mgr : MemMgr) (cells : List Proc) (r : MemMgr × List Proc),
      coalesce fuel mgr cells = some r → TableOwn S mgr → TableOwn S r.1 :=
  coalesce_preserves (fun m _ => TableOwn S m)
    (fun m c k hk hb hI => tableOwn_merge_at S m c k hk hb hI)

/-- After a split and `claim_block`, a block other than the claimed one that has
an owner is an unchanged block of the table before the call. -/
theorem claim_split_owned_source (mgr : MemMgr) (proc : Proc) (k : Nat)
    (hk : k < mgr.num_blocks.toNat) (j : Nat) (hj : j < mgr.num_blocks.toNat + 1)
    (hjk : j ≠ k)
    (hp : ((claim_block (split_block mgr k proc.req_size) proc (k : Int)).2.1.segments j).proc_id
      ≠ -1) :
    ∃ j0, j0 < mgr.num_blocks.toNat ∧
      (claim_block (split_block mgr k proc.req_size) proc (k : Int)).2.1.segments j
        = mgr.segments j0 ∧
      ((j < k ∧ j0 = j) ∨ (k + 1 < j ∧ j0 = j - 1)) := by
  rw [claim_split_segments mgr proc k hk] at hp ⊢
  by_cases e2 : j = k + 1
  · rw [if_neg hjk, if_pos e2] at hp
    exact absurd rfl hp
  · by_cases e3 : k + 1 < j ∧ j ≤ mgr.num_blocks.toNat
    · rw [if_neg hjk, if_neg e2, if_pos e3]
      exact ⟨j - 1, by omega, rfl, Or.inr ⟨by omega, rfl⟩⟩
    · rw [if_neg hjk, if_neg e2, if_neg e3]
      exact ⟨j, by omega, rfl, Or.inl ⟨by omega, rfl⟩⟩

/-- `allocate_mem` keeps the ownership discipline when the id of the request is
not `-1` and no block of the table carries it yet; the id joins the set when the
call succeeds. -/
theorem tableOwn_allocate_mem (S : Int → Prop) (mgr : MemMgr) (proc : Proc)
    (h : TableOwn S mgr) (hid : proc.id ≠ -1)
    (hfresh : ∀ j, j < mgr.num_blocks.toNat → (mgr.segments j).proc_id ≠ proc.id) :
    TableOwn (fun x => S x ∨ ((allocate_mem mgr proc).1 = true ∧ x = proc.id))
      (allocate_mem mgr proc).2.1 := by
  by_cases hr : Rejects mgr proc
  · rw [allocate_mem_of_rejects mgr proc hr]
    exact tableOwn_mono S _ mgr (fun x hx => Or.inl hx) h
  · have hsucc := (allocate_mem_fst_true_iff mgr proc).mpr hr
    obtain ⟨t1, t2, t3, t4⟩ := h
    have hbw := allocate_mem_blockwise
      (fun b => (b.available = true → b.proc_id = -1) ∧
        (b.available = false → b.proc_id ≠ -1) ∧
        (b.proc_id ≠ -1 → S b.proc_id ∨ ((allocate_mem mgr proc).1 = true ∧ b.proc_id = proc.id)))
      mgr proc (fun j hj => ⟨t1 j hj, t2 j hj, fun hp => Or.inl (t3 j hj hp)⟩)
      (fun k _ _ _ => ⟨fun ha => by simp at ha, fun _ => hid, fun _ => Or.inr ⟨hsucc, rfl⟩⟩)
      (fun k _ _ _ => ⟨fun ha => by simp at ha, fun _ => hid, fun _ => Or.inr ⟨hsucc, rfl⟩⟩)
      (fun k _ _ _ => ⟨fun _ => rfl, fun ha => by simp at ha, fun hp => absurd rfl hp⟩)
    refine ⟨fun j hj => (hbw j hj).1, fun j hj => (hbw j hj).2.1,
      fun j hj => (hbw j hj).2.2, ?_⟩
    obtain ⟨k, _, hkn, hq, _, hcase⟩ := allocate_mem_success mgr proc hsucc
    rcases hcase with ⟨_, _, heq⟩ | ⟨_, heq⟩
    · rw [heq]
      have hn : (claim_block (split_block mgr k proc.req_size) proc (k : Int)).2.1.num_blocks
          = mgr.num_blocks + 1 := rfl
      have hkpid : ((claim_block (split_block mgr k proc.req_size) proc
          (k : Int)).2.1.segments k).proc_id = proc.id := by
        rw [claim_split_segments mgr proc k hkn, if_pos rfl]
      intro j1 j2 h1 h2 he hp
      rw [hn] at h1 h2
      have h1' : j1 < mgr.num_blocks.toNat + 1 := by omega
      have h2' : j2 < mgr.num_blocks.toNat + 1 := by omega
      by_cases e1 : j1 = k
      · by_cases e2 : j2 = k
        · omega
        · exfalso
          rw [e1, hkpid] at he
          obtain ⟨b, hbn, hsb, _⟩ := claim_split_owned_source mgr proc k hkn j2 h2' e2
            (by rw [← he]; exact hid)
          rw [hsb] at he
          exact hfresh b hbn he.symm
      · by_cases e2 : j2 = k
        · exfalso
          rw [e2, hkpid] at he
          obtain ⟨a, han, hsa, _⟩ := claim_split_owned_source mgr proc k hkn j1 h1' e1 hp
          rw [hsa] at he
          exact hfresh a han he
        · obtain ⟨a, han, hsa, hca⟩ := claim_split_owned_source mgr proc k hkn j1 h1' e1 hp
          obtain ⟨b, hbn, hsb, hcb⟩ := claim_split_owned_source mgr proc k hkn j2 h2' e2
            (by rw [← he]; exact hp)
          rw [hsa, hsb] at he
          rw [hsa] at hp
          have := t4 a b han hbn he hp
          omega
    · rw [heq]
      have hn : (claim_block mgr proc (k : Int)).2.1.num_blocks = mgr.num_blocks := rfl
      intro j1 j2 h1 h2 he hp
      rw [hn] at h1 h2
      rw [claim_block_segments] at he hp
      rw [claim_block_segments] at he
      by_cases e1 : j1 = k
      · by_cases e2 : j2 = k
        · omega
        · exfalso
          rw [if_pos e1, if_neg e2] at he
          exact hfresh j2 h2 he.symm
      · by_cases e2 : j2 = k
        · exfalso
          rw [if_neg e1, if_pos e2] at he
          exact hfresh j1 h1 he
        · rw [if_neg e1, if_neg e2] at he
          rw [if_neg e1] at hp
          exact t4 j1 j2 h1 h2 he hp

/-! ## The request array across calls -/

theorem list_split_at {α : Type} (l : List α) (p : Nat) (x : α) (h : l[p]? = some x) :
    l = l.take p ++ x :: l.drop (p + 1) := by
  obtain ⟨hlt, hx⟩ := List.getElem?_eq_some.mp h
  conv_lhs => rw [← List.take_append_drop p l, List.drop_eq_getElem_cons hlt, hx]

theorem list_set_at {α : Type} (l : List α) (p : Nat) (x y : α) (h : l[p]? = some x) :
    l.set p y = l.take p ++ y :: l.drop (p + 1) := by
  obtain ⟨hlt, _⟩ := List.getElem?_eq_some.mp h
  rw [List.set_eq_take_append_cons_drop, if_pos hlt]

theorem renumber_map_tag :
    ∀ (c : Nat) (i : Int) (cells : List Proc),
      (renumber c i cells).map Proc.tag = cells.map Proc.tag := by
  intro c
  induction c with
  | zero => intro i cells; rfl
  | succ c ih =>
    intro i cells
    cases cells with
    | nil => rfl
    | cons p cells =>
      rw [renumber_cons, List.map_cons, List.map_cons, ih]
      congr 1
      split_ifs <;> rfl

theorem coalesce_map_tag (cells0 : List Proc) :
    ∀ (fuel : Nat) (mgr : MemMgr) (cells : List Proc) (r : MemMgr × List Proc),
      coalesce fuel mgr cells = some r → cells.map Proc.tag = cells0.map Proc.tag →
      r.2.map Proc.tag = cells0.map Proc.tag := by
  apply coalesce_preserves (fun _ cells => cells.map Proc.tag = cells0.map Proc.tag)
  intro mgr cells k _ _ h
  have e : (merge_at mgr cells k).2 = renumber MAX_PROC (k : Int) cells := rfl
  rw [e, renumber_map_tag]
  exact h

/-- The request cell `allocate_mem` leaves behind keeps its id; it is
`PROC_ACTIVE` when the call succeeded and untouched when it failed. -/
theorem allocate_mem_proc (mgr : MemMgr) (proc : Proc) :
    (allocate_mem mgr proc).2.2.id = proc.id ∧
    ((allocate_mem mgr proc).1 = true →
      (allocate_mem mgr proc).2.2.status = ProcStatus.PROC_ACTIVE) ∧
    ((allocate_mem mgr proc).1 = false → (allocate_mem mgr proc).2.2 = proc) := by
  rw [allocate_mem_eq]
  by_cases hr : Rejects mgr proc
  · simp [hr]
  · simp only [if_neg hr]
    split_ifs <;> exact ⟨rfl, fun _ => rfl, fun h => by simp [claim_block] at h⟩

theorem map_id_of_map_tag (l1 l2 : List Proc) (h : l1.map Proc.tag = l2.map Proc.tag) :
    l1.map Proc.id = l2.map Proc.id := by
  have := congrArg (List.map Prod.fst) h
  simpa [List.map_map, Function.comp, Proc.tag] using this

theorem exists_mem_of_map_tag (l1 l2 : List Proc) (h : l1.map Proc.tag = l2.map Proc.tag)
    (q : Proc) (hq : q ∈ l1) : ∃ q1, q1 ∈ l2 ∧ q1.id = q.id ∧ q1.status = q.status := by
  have hm : q.tag ∈ l1.map Proc.tag := List.mem_map_of_mem _ hq
  rw [h] at hm
  obtain ⟨q1, hq1, ht⟩ := List.mem_map.mp hm
  have h1 : q1.id = q.id := congrArg Prod.fst ht
  have h2 : q1.status = q.status := congrArg Prod.snd ht
  exact ⟨q1, hq1, h1, h2⟩

/-- How the request array changes in one `free_mem(mgr, &procs[p])` call that
does not return at the guard: the cells before `p` are untouched, cell `p`
becomes `PROC_DONE` with `block_idx = -1`, and the cells after `p` keep their ids
and statuses. -/
theorem free_mem_cells (fuel : Nat) (mgr : MemMgr) (proc : Proc) (rest : List Proc)
    (r : MemMgr × List Proc) (h : free_mem fuel mgr proc rest = some r)
    (hidx : proc.block_idx ≠ -1) :
    ∃ rest1, r.2 = { proc with status := ProcStatus.PROC_DONE, block_idx := -1 } :: rest1 ∧
      rest1.map Proc.tag = rest.map Proc.tag := by
  rcases free_mem_cases fuel mgr proc rest with ⟨h1, _⟩ | ⟨_, h2⟩
  · exact absurd h1 hidx
  · rw [h2] at h
    obtain ⟨rest1, h3⟩ := coalesce_head
      { proc with status := ProcStatus.PROC_DONE, block_idx := -1 } rfl fuel _ _ r h
      ⟨rest, rfl⟩
    refine ⟨rest1, h3, ?_⟩
    have h4 := coalesce_map_tag _ fuel _ _ r h rfl
    rw [h3, List.map_cons, List.map_cons] at h4
    exact (List.cons.inj h4).2

/-- In every run in which `allocate_mem` is only called on `PROC_NEW` requests,
over requests with distinct ids other than `-1`, the table keeps the ownership
discipline relative to the ids of the requests that have left `PROC_NEW`. -/
theorem reachable_tableOwn (cap : Int) (mgr : MemMgr) (procs : List Proc)
    (h : ReachableWhen cap (fun q => q.status = ProcStatus.PROC_NEW) mgr procs) :
    (procs.map Proc.id).Nodup → (∀ q, q ∈ procs → q.id ≠ -1) →
      TableOwn (Allocated procs) mgr := by
  induction h with
  | init mgr0 method procs _ =>
    intro _ _
    exact tableOwn_init _ cap mgr0 method
  | alloc mgr procs p proc _ hp hok ih =>
    intro hnd hid
    have hsplit := list_split_at procs p proc hp
    have hset := list_set_at procs p proc (allocate_mem mgr proc).2.2 hp
    obtain ⟨hpid, hpact, _⟩ := allocate_mem_proc mgr proc
    have hmem : proc ∈ procs := by
      rw [hsplit]; simp
    have hids : (procs.set p (allocate_mem mgr proc).2.2).map Proc.id = procs.map Proc.id := by
      rw [hset]
      conv_rhs => rw [hsplit]
      simp [hpid]
    rw [hids] at hnd
    have hid0 : ∀ q, q ∈ procs → q.id ≠ -1 := by
      intro q hq
      rw [hsplit] at hq
      rcases List.mem_append.mp hq with h1 | h1
      · exact hid q (by rw [hset]; exact List.mem_append.mpr (Or.inl h1))
      · rcases List.mem_cons.mp h1 with h2 | h2
        · have := hid (allocate_mem mgr proc).2.2
            (by rw [hset]; simp)
          rw [h2, ← hpid]; exact this
        · exact hid q (by rw [hset]; simp [h2])
    have hI := ih hnd hid0
    have hfresh : ∀ j, j < mgr.num_blocks.toNat → (mgr.segments j).proc_id ≠ proc.id := by
      intro j hj he
      have hne : (mgr.segments j).proc_id ≠ -1 := by rw [he]; exact hid0 proc hmem
      obtain ⟨q, hq, hqid, hqst⟩ := hI.2.2.1 j hj hne
      have : q = proc := List.inj_on_of_nodup_map hnd hq hmem (by rw [hqid, he])
      rw [this] at hqst
      exact hqst hok
    have hT := tableOwn_allocate_mem (Allocated procs) mgr proc hI (hid0 proc hmem) hfresh
    refine tableOwn_mono _ _ _ ?_ hT
    intro x hx
    rcases hx with ⟨q, hq, hqid, hqst⟩ | ⟨hs, hx⟩
    · refine ⟨q, ?_, hqid, hqst⟩
      rw [hsplit] at hq
      rw [hset]
      rcases List.mem_append.mp hq with h1 | h1
      · exact List.mem_append.mpr (Or.inl h1)
      · rcases List.mem_cons.mp h1 with h2 | h2
        · rw [h2] at hqst
          exact absurd hok hqst
        · simp [h2]
    · refine ⟨(allocate_mem mgr proc).2.2, by rw [hset]; simp, by rw [hpid, hx], ?_⟩
      rw [hpact hs]
      decide
  | free mgr procs fuel p proc r _ hp hfree ih =>
    intro hnd hid
    have hsplit := list_split_at procs p proc hp
    by_cases hidx : proc.block_idx = -1
    · rcases free_mem_cases fuel mgr proc (procs.drop (p + 1)) with ⟨_, h2⟩ | ⟨h1, _⟩
      · rw [h2] at hfree
        cases hfree
        rw [← hsplit] at hnd hid ⊢
        exact ih hnd hid
      · exact absurd hidx h1
    · obtain ⟨rest1, hr2, htag⟩ := free_mem_cells fuel mgr proc _ r hfree hidx
      have hids1 := map_id_of_map_tag _ _ htag
      have hids : (procs.take p ++ r.2).map Proc.id = procs.map Proc.id := by
        rw [hr2]
        conv_rhs => rw [hsplit]
        simp [hids1]
      rw [hids] at hnd
      have hid0 : ∀ q, q ∈ procs → q.id ≠ -1 := by
        intro q hq
        rw [hsplit] at hq
        rcases List.mem_append.mp hq with h1 | h1
        · exact hid q (List.mem_append.mpr (Or.inl h1))
        · rcases List.mem_cons.mp h1 with h2 | h2
          · have := hid { proc with status := ProcStatus.PROC_DONE, block_idx := -1 }
              (by rw [hr2]; simp)
            rw [h2]; exact this
          · obtain ⟨q1, hq1, hq1id, _⟩ := exists_mem_of_map_tag _ _ htag.symm q h2
            have := hid q1 (by rw [hr2]; simp [hq1])
            rw [← hq1id]; exact this
      have hI := ih hnd hid0
      rcases free_mem_cases fuel mgr proc (procs.drop (p + 1)) with ⟨h1, _⟩ | ⟨_, h2⟩
      · exact absurd h1 hidx
      · rw [h2] at hfree
        have hT := coalesce_tableOwn (Allocated procs) fuel _ _ r hfree
          (tableOwn_release_block _ mgr _ hI)
        refine tableOwn_mono _ _ _ ?_ hT
        intro x ⟨q, hq, hqid, hqst⟩
        rw [hsplit] at hq
        rcases List.mem_append.mp hq with h3 | h3
        · exact ⟨q, List.mem_append.mpr (Or.inl h3), hqid, hqst⟩
        · rcases List.mem_cons.mp h3 with h4 | h4
          · refine ⟨{ proc with status := ProcStatus.PROC_DONE, block_idx := -1 },
              by rw [hr2]; simp, by rw [← hqid, h4], by simp⟩
          · obtain ⟨q1, hq1, hq1id, hq1st⟩ := exists_mem_of_map_tag _ _ htag.symm q h4
            exact ⟨q1, by rw [hr2]; simp [hq1], by rw [hq1id, hqid], by rw [hq1st]; exact hqst⟩

/-- Claim C16 (ownership invariant).  In every state reachable by `allocate_mem`
and `free_mem` calls over requests with distinct ids different from `-1`, each
passed to `allocate_mem` only while its status is `PROC_NEW`, a segment of the
table (one of the first `num_blocks`) has `proc_id != -1` if and only if it is
not available, and no two segments of the table carry the same `proc_id` other
than `-1`. -/
theorem ownership_invariant (cap : Int) (mgr : MemMgr) (procs : List Proc)
    (h : ReachableWhen cap (fun q => q.status = ProcStatus.PROC_NEW) mgr procs)
    (hnd : (procs.map Proc.id).Nodup) (hid : ∀ q, q ∈ procs → q.id ≠ -1) :
    (∀ j : Nat, (j : Int) < mgr.num_blocks →
      ((mgr.segments j).proc_id ≠ -1 ↔ (mgr.segments j).available = false)) ∧
    (∀ j1 j2 : Nat, (j1 : Int) < mgr.num_blocks → (j2 : Int) < mgr.num_blocks →
      (mgr.segments j1).proc_id = (mgr.segments j2).proc_id →
      (mgr.segments j1).proc_id ≠ -1 → j1 = j2) := by
  obtain ⟨t1, t2, _, t4⟩ := reachable_tableOwn cap mgr procs h hnd hid
  refine ⟨?_, ?_⟩
  · intro j hj
    constructor
    · intro hp
      cases ha : (mgr.segments j).available with
      | true => exact absurd (t1 j (by omega) ha) hp
      | false => rfl
    · intro ha
      exact t2 j (by omega) ha
  · intro j1 j2 h1 h2 he hp
    exact t4 j1 j2 (by omega) (by omega) he hp

theorem ownership_invariant_witness :
    ((scenario_hole_reused.1.segments 2).proc_id ≠ -1 ↔
      (scenario_hole_reused.1.segments 2).available = false) :=
  (ownership_invariant 100 scenario_hole_reused.1 scenario_hole_reused.2
    (scenario_hole_reused_reachableWhen (fun q => q.status = ProcStatus.PROC_NEW)
      rfl rfl rfl) (by decide) (by decide)).1 2 (by decide)

/-! ## Fragmentation metrics -/

theorem count_free_loop_spec (mgr : MemMgr) :
    ∀ (c i : Nat) (e t f : Int),
      (count_free_loop mgr c i (e, t, f)).1
        = e + (((List.range' i c).filter (fun j => (mgr.segments j).available)).length : Int) ∧
      (count_free_loop mgr c i (e, t, f)).2.2
        = f + (((List.range' i c).filter (fun j => (mgr.segments j).available)).length : Int) := by
  intro c
  induction c with
  | zero => intro i e t f; simp [count_free_loop]
  | succ c ih =>
    intro i e t f
    rw [List.range'_succ]
    cases ha : (mgr.segments i).available with
    | true =>
      simp only [count_free_loop, ha, if_true, List.filter_cons_of_pos, List.length_cons]
      obtain ⟨h1, h2⟩ := ih (i + 1) (e + 1) (t + (mgr.segments i).chunk_size) (f + 1)
      rw [h1, h2]
      constructor <;> push_cast <;> ring
    | false =>
      simp only [count_free_loop, ha, Bool.false_eq_true, if_false]
      rw [List.filter_cons_of_neg (by simp [ha])]
      exact ih (i + 1) e t f

theorem free_count_eq (mgr : MemMgr) :
    free_count mgr
      = ((List.range' 0 mgr.num_blocks.toNat).filter
          (fun j => (mgr.segments j).available)).length := by
  unfold free_count MemMgr.blocks
  rw [List.filter_map, List.length_map, List.range_eq_range']
  rfl

theorem update_frag_metrics_ext_frag (mgr : MemMgr) (stats : Stats) :
    (update_frag_metrics mgr stats).ext_frag = (free_count mgr : Int) := by
  have h := (count_free_loop_spec mgr mgr.num_blocks.toNat 0 0 0 0).1
  rw [free_count_eq]
  simpa [update_frag_metrics] using h

/-- The value of `frag_percent` in terms of the number of available blocks and
the result of the second loop. -/
theorem update_frag_metrics_frag_percent (mgr : MemMgr) (stats : Stats) :
    (update_frag_metrics mgr stats).frag_percent =
      if mgr.avail_size > 0 ∧ free_count mgr > 1 then
        (((mgr.avail_size - largest_free_loop mgr mgr.num_blocks.toNat 0 0 : Int) : ℚ)
          / (mgr.avail_size : ℚ)) * 100
      else 0 := by
  have h := (count_free_loop_spec mgr mgr.num_blocks.toNat 0 0 0 0).2
  rw [← free_count_eq, zero_add] at h
  simp only [update_frag_metrics, h]
  by_cases h1 : mgr.avail_size > 0
  · by_cases h2 : free_count mgr > 1
    · have h3 : ((free_count mgr : Nat) : Int) > 1 := by omega
      simp [h1, h2, h3]
    · have h3 : ¬ ((free_count mgr : Nat) : Int) > 1 := by omega
      simp [h1, h2, h3]
  · simp [h1]

theorem largest_free_loop_inv (mgr : MemMgr) :
    ∀ (c i : Nat) (l : Int), LargestInv mgr i l →
      LargestInv mgr (i + c) (largest_free_loop mgr c i l) := by
  intro c
  induction c with
  | zero => intro i l h; exact h
  | succ c ih =>
    intro i l ⟨h0, hle, hex⟩
    have hidx : i + (c + 1) = i + 1 + c := by omega
    rw [hidx]
    by_cases hc : (mgr.segments i).available = true ∧ (mgr.segments i).chunk_size > l
    · have hstep : largest_free_loop mgr (c + 1) i l
          = largest_free_loop mgr c (i + 1) (mgr.segments i).chunk_size := by
        simp [largest_free_loop, hc.1, hc.2]
      rw [hstep]
      apply ih
      refine ⟨by omega, ?_, Or.inl ⟨i, by omega, hc.1, rfl⟩⟩
      intro j hj ha
      rcases Nat.lt_succ_iff_lt_or_eq.mp hj with h1 | h1
      · have := hle j h1 ha; omega
      · subst h1; exact le_refl _
    · have hstep : largest_free_loop mgr (c + 1) i l = largest_free_loop mgr c (i + 1) l := by
        have : ¬ (((mgr.segments i).available &&
            decide ((mgr.segments i).chunk_size > l)) = true) := by
          simpa using hc
        simp only [largest_free_loop, this]
        simp
      rw [hstep]
      apply ih
      refine ⟨h0, ?_, ?_⟩
      · intro j hj ha
        rcases Nat.lt_succ_iff_lt_or_eq.mp hj with h1 | h1
        · exact hle j h1 ha
        · subst h1
          by_contra hgt
          exact hc ⟨ha, by omega⟩
      · rcases hex with ⟨j, hj, ha, he⟩ | h1
        · exact Or.inl ⟨j, by omega, ha, he⟩
        · exact Or.inr h1

theorem largest_free_loop_spec (mgr : MemMgr) :
    LargestInv mgr mgr.num_blocks.toNat (largest_free_loop mgr mgr.num_blocks.toNat 0 0) := by
  have h := largest_free_loop_inv mgr mgr.num_blocks.toNat 0 0
    ⟨le_refl _, by intro j hj; omega, Or.inr rfl⟩
  simpa using h

/-! ## Free blocks have no owner -/

theorem freeUnowned_allocate_mem (mgr : MemMgr) (proc : Proc) (h : FreeUnowned mgr) :
    FreeUnowned (allocate_mem mgr proc).2.1 :=
  allocate_mem_blockwise (fun b => b.available = true → b.proc_id = -1) mgr proc h
    (fun _ _ _ _ ha => by simp at ha) (fun _ _ _ _ ha => by simp at ha)
    (fun _ _ _ _ _ => rfl)

theorem freeUnowned_init (cap : Int) (mgr0 : MemMgr) (method : AllocMethod) :
    FreeUnowned (init_mem_mgr cap mgr0 method) := by
  intro j hj _
  have : j = 0 := by
    have : j < 1 := hj
    omega
  subst this
  simp [init_mem_mgr]

/-- The data-model conditions under which the released range stays covered hold
in every reachable state: the table is contiguous and its free blocks have no
owner. -/
theorem reachable_freeUnowned (cap : Int) (mgr : MemMgr) (procs : List Proc)
    (h : Reachable cap mgr procs) : FreeUnowned mgr :=
  reachable_induction cap FreeUnowned
    (fun mgr0 method => freeUnowned_init cap mgr0 method)
    (fun m proc hI => freeUnowned_allocate_mem m proc hI)
    (fun m idx hI => freeUnowned_release_block m idx hI)
    (fun m cells k hk _ hI => freeUnowned_merge_at m cells k hk hI)
    mgr procs h

/-! ## The postcondition of a release in a run -/

theorem exists_available_of_free_count_pos (mgr : MemMgr) (h : 0 < free_count mgr) :
    ∃ j, j < mgr.num_blocks.toNat ∧ (mgr.segments j).available = true := by
  rw [free_count_eq] at h
  obtain ⟨j, hj⟩ := List.exists_mem_of_length_pos h
  rw [List.mem_filter, List.mem_range'_1] at hj
  exact ⟨j, by omega, hj.2⟩

/-- Claim C18 (fragmentation percentage).  For every manager state whose table
has no block of negative size, `update_frag_metrics` sets `ext_frag` to the
number of available segments of the table, sets `frag_percent` to 0 when
`avail_size <= 0` or at most one segment is available, and otherwise sets it to
`(avail_size - L) / avail_size * 100` in exact rational arithmetic, where `L` is
the largest `chunk_size` among the available segments. -/
theorem frag_metrics (mgr : MemMgr) (stats : Stats) (hnn : NonNegSizes mgr) :
    (update_frag_metrics mgr stats).ext_frag = (free_count mgr : Int) ∧
    ((mgr.avail_size ≤ 0 ∨ free_count mgr ≤ 1) →
      (update_frag_metrics mgr stats).frag_percent = 0) ∧
    (mgr.avail_size > 0 → free_count mgr > 1 →
      ∃ L, IsLargestFree mgr L ∧
        (update_frag_metrics mgr stats).frag_percent
          = (((mgr.avail_size - L : Int) : ℚ) / (mgr.avail_size : ℚ)) * 100) := by
  refine ⟨update_frag_metrics_ext_frag mgr stats, ?_, ?_⟩
  · intro h
    rw [update_frag_metrics_frag_percent]
    have : ¬ (mgr.avail_size > 0 ∧ free_count mgr > 1) := by omega
    rw [if_neg this]
  · intro h1 h2
    have hfp := update_frag_metrics_frag_percent mgr stats
    rw [if_pos ⟨h1, h2⟩] at hfp
    obtain ⟨h0, hle, hex⟩ := largest_free_loop_spec mgr
    refine ⟨largest_free_loop mgr mgr.num_blocks.toNat 0 0, ⟨?_, hle⟩, hfp⟩
    rcases hex with hx | hz
    · exact hx
    · obtain ⟨j, hj, ha⟩ := exists_available_of_free_count_pos mgr (by omega)
      refine ⟨j, hj, ha, ?_⟩
      have h3 := hle j hj ha
      have h4 := hnn j hj
      omega

theorem frag_metrics_witness :
    (update_frag_metrics scenario_hole_reused.1 zero_stats).ext_frag = 2 ∧
    (update_frag_metrics scenario_hole_reused.1 zero_stats).frag_percent
      = (((60 - 40 : Int) : ℚ) / ((60 : Int) : ℚ)) * 100 := by
  have hnn : NonNegSizes scenario_hole_reused.1 := by
    unfold NonNegSizes
    decide
  have h := frag_metrics scenario_hole_reused.1 zero_stats hnn
  have hc : free_count scenario_hole_reused.1 = 2 := by decide
  have ha : scenario_hole_reused.1.avail_size = 60 := by decide
  refine ⟨by rw [h.1, hc]; rfl, ?_⟩
  obtain ⟨L, hL, hf⟩ := h.2.2 (by decide) (by decide)
  have h40 : L = 40 := by
    have h1 := hL.2 3 (by decide) (by decide)
    have h2 : (scenario_hole_reused.1.segments 3).chunk_size = 40 := by decide
    obtain ⟨j, hj, _, hje⟩ := hL.1
    have h3 : ∀ j, j < scenario_hole_reused.1.num_blocks.toNat →
        (scenario_hole_reused.1.segments j).chunk_size ≤ 40 := by decide
    have := h3 j hj
    omega
  rw [hf, ha, h40]

/-! ## The allocated blocks across a release -/

theorem scenario_whole_block_freed_reachableWhen :
    ReachableWhen 100 (fun q => 0 < q.req_size) scenario_whole_block_freed.1
      scenario_whole_block_freed.2 := by
  unfold scenario_whole_block_freed
  apply reachableWhen_call_free
  exact scenario_whole_block_reachableWhen

/-- Claim C22 (free-size bounds), evaluated on a run: capacity 100, one request
of size 95 (greater than 0), allocated and then freed.  The allocation hands
out the whole block of 100 and charges 95; the release credits the
`chunk_size` 100.  The table is back to one free block of 100, but
`avail_size` is 105, above `full_size = 100`, and the used amount
`full_size - avail_size` is `-5`. -/
theorem avail_size_exceeds_full_size :
    ReachableWhen 100 (fun q => 0 < q.req_size) scenario_whole_block_freed.1
      scenario_whole_block_freed.2 ∧
    scenario_whole_block_freed.1.blocks = [⟨0, 100, true, -1⟩] ∧
    scenario_whole_block_freed.1.full_size = 100 ∧
    scenario_whole_block_freed.1.avail_size = 105 ∧
    ¬ (scenario_whole_block_freed.1.avail_size ≤ scenario_whole_block_freed.1.full_size) ∧
    scenario_whole_block_freed.1.full_size - scenario_whole_block_freed.1.avail_size = -5 :=
  ⟨scenario_whole_block_freed_reachableWhen, by decide, by decide, by decide, by decide,
    by decide⟩

theorem filter_set_eq_filter_eraseIdx {α : Type} (p : α → Bool) (b : α) (hb : p b = false) :
    ∀ (l : List α) (idx : Nat), idx < l.length →
      (l.set idx b).filter p = (l.eraseIdx idx).filter p := by
  intro l
  induction l with
  | nil => intro idx h; simp at h
  | cons a l ih =>
    intro idx h
    cases idx with
    | zero => simp [List.filter_cons, hb]
    | succ idx =>
      have h1 : idx < l.length := by simpa using h
      simp only [List.set_cons_succ, List.eraseIdx_cons_succ, List.filter_cons]
      rw [ih idx h1]

theorem blocks_length (mgr : MemMgr) : mgr.blocks.length = mgr.num_blocks.toNat := by
  simp [MemMgr.blocks]

theorem blocks_congr (m1 m2 : MemMgr) (hn : m1.num_blocks = m2.num_blocks)
    (h : ∀ j, j < m2.num_blocks.toNat → m1.segments j = m2.segments j) :
    m1.blocks = m2.blocks := by
  unfold MemMgr.blocks
  rw [hn]
  apply List.map_congr_left
  intro j hj
  exact h j (List.mem_range.mp hj)

theorem release_block_blocks (mgr : MemMgr) (idx : Nat) :
    (release_block mgr idx).blocks
      = mgr.blocks.set idx { mgr.segments idx with available := true, proc_id := -1 } := by
  apply List.ext_getElem
  · simp [MemMgr.blocks, release_block_num_blocks]
  · intro j h1 h2
    simp only [MemMgr.blocks, List.getElem_map, List.getElem_range, List.getElem_set,
      release_block_segments]
    by_cases e : j = idx
    · subst e; simp
    · have e2 : ¬ idx = j := fun h => e h.symm
      simp [e, e2]

theorem used_blocks_release_block (mgr : MemMgr) (idx : Nat)
    (hidx : idx < mgr.num_blocks.toNat) :
    used_blocks (release_block mgr idx)
      = (mgr.blocks.eraseIdx idx).filter (fun b => !b.available) := by
  unfold used_blocks
  rw [release_block_blocks]
  exact filter_set_eq_filter_eraseIdx _ _ rfl _ idx (by rw [blocks_length]; exact hidx)

/-- Replacing two neighbouring available entries by one available entry leaves
the list of entries that are not available unchanged. -/
theorem range_used_remove (f g : Nat → MemBlock) (i n : Nat)
    (hlo : ∀ j, j < i → g j = f j) (hgi : (g i).available = true)
    (hfi : (f i).available = true) (hfi1 : (f (i + 1)).available = true)
    (hhi : ∀ j, i < j → j + 1 < n → g j = f (j + 1)) :
    ∀ m, i + 1 < m → m ≤ n →
      ((List.range (m - 1)).map g).filter (fun b => !b.available)
        = ((List.range m).map f).filter (fun b => !b.available) := by
  have hcongr : ∀ k, k ≤ i →
      ((List.range k).map g).filter (fun b => !b.available)
        = ((List.range k).map f).filter (fun b => !b.available) := by
    intro k hk
    congr 1
    apply List.map_congr_left
    intro j hj
    exact hlo j (by have := List.mem_range.mp hj; omega)
  intro m
  induction m with
  | zero => intro h; omega
  | succ m ih =>
    intro hm hmn
    rw [List.range_succ, List.map_append, List.filter_append]
    by_cases him : i + 1 < m
    · have e : m + 1 - 1 = (m - 1) + 1 := by omega
      rw [e, List.range_succ, List.map_append, List.filter_append, ih him (by omega)]
      have e2 : g (m - 1) = f m := by
        have := hhi (m - 1) (by omega) (by omega)
        rw [this]; congr 1; omega
      simp [e2]
    · have e : m = i + 1 := by omega
      subst e
      simp only [Nat.add_sub_cancel, List.range_succ, List.map_append, List.filter_append]
      rw [hcongr i (le_refl _)]
      simp [hgi, hfi, hfi1]

theorem used_blocks_merge_at (mgr : MemMgr) (cells : List Proc) (k : Nat)
    (hk : k + 1 < mgr.num_blocks.toNat) (hb : BothFree mgr k) :
    used_blocks (merge_at mgr cells k).1 = used_blocks mgr := by
  unfold used_blocks MemMgr.blocks
  rw [merge_at_num_blocks]
  have e : (mgr.num_blocks - 1).toNat = mgr.num_blocks.toNat - 1 := by omega
  rw [e]
  apply range_used_remove _ _ k mgr.num_blocks.toNat _ _ hb.1 hb.2 _ _ hk (le_refl _)
  · intro j hj
    have e1 : j ≠ k := by omega
    have e2 : ¬ (k < j ∧ j + 1 < mgr.num_blocks.toNat) := by omega
    rw [merge_at_segments mgr cells k hk, if_neg e1, if_neg e2]
  · rw [merge_at_segments mgr cells k hk, if_pos rfl]
    exact hb.1
  · intro j hj hjn
    have e1 : j ≠ k := by omega
    have e2 : k < j ∧ j + 1 < mgr.num_blocks.toNat := by omega
    rw [merge_at_segments mgr cells k hk, if_neg e1, if_pos e2]

theorem coalesce_used_blocks :
    ∀ (fuel : Nat) (mgr : MemMgr) (cells : List Proc) (r : MemMgr × List Proc),
      coalesce fuel mgr cells = some r → used_blocks r.1 = used_blocks mgr := by
  intro fuel mgr cells r h
  exact coalesce_preserves (fun m _ => used_blocks m = used_blocks mgr)
    (fun m c k hk hb hP => by
      show used_blocks (merge_at m c k).1 = used_blocks mgr
      rw [used_blocks_merge_at m c k hk hb]; exact hP)
    fuel mgr cells r h rfl

/-- Claim C23 (free leaves other allocations untouched).  For every state and
every request whose `block_idx = i` is a valid index, `free_mem` returns (given
fuel above the number of blocks), and the sequence of non-available segments in
table order after the call (each with its `begin_addr`, `chunk_size` and
`proc_id`) equals the sequence of non-available segments of the table before the
call with block `i` removed. -/
theorem free_mem_keeps_other_allocations (fuel : Nat) (mgr : MemMgr) (proc : Proc)
    (rest : List Proc) (hlo : 0 ≤ proc.block_idx) (hhi : proc.block_idx < mgr.num_blocks)
    (hfuel : mgr.num_blocks.toNat < fuel) :
    ∃ r, free_mem fuel mgr proc rest = some r ∧
      r.1.blocks.filter (fun b => !b.available)
        = (mgr.blocks.eraseIdx proc.block_idx.toNat).filter (fun b => !b.available) := by
  obtain ⟨r, hr⟩ := free_mem_terminates fuel mgr proc rest hfuel
  refine ⟨r, hr, ?_⟩
  rcases free_mem_cases fuel mgr proc rest with ⟨h1, _⟩ | ⟨_, h2⟩
  · omega
  · rw [h2] at hr
    have h3 := coalesce_used_blocks fuel _ _ r hr
    unfold used_blocks at h3
    rw [h3]
    exact used_blocks_release_block mgr _ (by omega)

theorem free_mem_keeps_other_allocations_witness :
    ∃ r, free_mem 4 scenario_two_allocated.1 ⟨2, 20, ProcStatus.PROC_ACTIVE, 1⟩
        [⟨3, 20, ProcStatus.PROC_NEW, -1⟩] = some r ∧
      r.1.blocks.filter (fun b => !b.available) = [⟨0, 40, false, 1⟩] := by
  obtain ⟨r, h1, h2⟩ := free_mem_keeps_other_allocations 4 scenario_two_allocated.1
    ⟨2, 20, ProcStatus.PROC_ACTIVE, 1⟩ [⟨3, 20, ProcStatus.PROC_NEW, -1⟩]
    (by decide) (by decide) (by decide)
  refine ⟨r, h1, ?_⟩
  rw [h2]
  decide

/-! ## Allocation followed by release -/

theorem sameTable_no_merge (mgr m : MemMgr) (hna : NoAdjacentFree mgr) (hs : SameTable mgr m)
    (k : Nat) (hk : k + 1 < m.num_blocks.toNat) (hb : BothFree m k) : False := by
  have hk2 : k + 1 < mgr.num_blocks.toNat := by rw [← hs.1]; exact hk
  apply hna k hk2
  unfold BothFree at hb ⊢
  rw [hs.2 k (by omega), hs.2 (k + 1) hk2] at hb
  exact hb

/-- An available block without owner is unchanged by claiming and releasing it. -/
theorem release_claim_same (b : MemBlock) (x : Int) (ha : b.available = true)
    (hp : b.proc_id = -1) :
    ({ ({ b with available := false, proc_id := x } : MemBlock) with
        available := true, proc_id := -1 } : MemBlock) = b := by
  cases b
  simp at ha hp
  simp [ha, hp]

/-- Contents of each slot after a split, `claim_block` and the release step. -/
theorem release_claim_split_segments (mgr : MemMgr) (proc : Proc) (k : Nat)
    (hk : k < mgr.num_blocks.toNat) (j : Nat) :
    (release_block (claim_block (split_block mgr k proc.req_size) proc (k : Int)).2.1
        k).segments j =
      if j = k then ⟨(mgr.segments k).begin_addr, proc.req_size, true, -1⟩
      else if j = k + 1 then
        ⟨(mgr.segments k).begin_addr + proc.req_size,
          (mgr.segments k).chunk_size - proc.req_size, true, -1⟩
      else if k + 1 < j ∧ j ≤ mgr.num_blocks.toNat then mgr.segments (j - 1)
      else mgr.segments j := by
  rw [release_block_segments]
  by_cases e : j = k
  · subst e
    rw [if_pos rfl, if_pos rfl, claim_split_segments mgr proc j hk, if_pos rfl]
  · rw [if_neg e, if_neg e, claim_split_segments mgr proc k hk, if_neg e]

theorem round_trip_no_split (mgr : MemMgr) (proc : Proc) (k : Nat)
    (hna : NoAdjacentFree mgr) (hfu : FreeUnowned mgr) (hk : k < mgr.num_blocks.toNat)
    (ha : (mgr.segments k).available = true) :
    ∀ (fuel : Nat) (cells : List Proc) (r : MemMgr × List Proc),
      coalesce fuel (release_block (claim_block mgr proc (k : Int)).2.1 k) cells = some r →
      SameTable mgr r.1 := by
  intro fuel cells r h
  refine coalesce_preserves (fun m _ => SameTable mgr m)
    (fun m c k1 hk1 hb hP => (sameTable_no_merge mgr m hna hP k1 hk1 hb).elim)
    fuel _ cells r h ⟨rfl, ?_⟩
  intro j _
  rw [release_block_segments]
  by_cases e : j = k
  · subst e
    rw [if_pos rfl, claim_block_segments, if_pos rfl]
    exact release_claim_same _ _ ha (hfu j hk ha)
  · rw [if_neg e, claim_block_segments, if_neg e]

theorem round_trip_split (mgr : MemMgr) (proc : Proc) (k : Nat)
    (hna : NoAdjacentFree mgr) (hfu : FreeUnowned mgr) (hk : k < mgr.num_blocks.toNat)
    (ha : (mgr.segments k).available = true) :
    ∀ (fuel : Nat) (cells : List Proc) (r : MemMgr × List Proc),
      coalesce fuel
        (release_block (claim_block (split_block mgr k proc.req_size) proc (k : Int)).2.1 k)
        cells = some r →
      SameTable mgr r.1 := by
  intro fuel cells r h
  have hseg := release_claim_split_segments mgr proc k hk
  have hP := coalesce_preserves
    (fun m _ => (m.num_blocks = mgr.num_blocks + 1 ∧
      ∀ j, j < mgr.num_blocks.toNat + 1 → m.segments j =
        (release_block (claim_block (split_block mgr k proc.req_size) proc (k : Int)).2.1
          k).segments j) ∨ SameTable mgr m)
    (fun m c k1 hk1 hb hP => by
      rcases hP with ⟨hn, hs⟩ | hs
      · right
        have hk1' : k1 + 1 < mgr.num_blocks.toNat + 1 := by omega
        have hb1 := hb.1
        have hb2 := hb.2
        rw [hs k1 (by omega), hseg] at hb1
        rw [hs (k1 + 1) hk1', hseg] at hb2
        have hk1k : k1 = k := by
          by_contra hne
          by_cases e2 : k1 + 1 = k
          · have e3 : ¬ (k + 1 < k1 ∧ k1 ≤ mgr.num_blocks.toNat) := by omega
            have e4 : k1 ≠ k + 1 := by omega
            rw [if_neg hne, if_neg e4, if_neg e3] at hb1
            exact hna k1 (by omega) ⟨hb1, by rw [e2]; exact ha⟩
          · by_cases e3 : k1 = k + 1
            · have e4 : k1 + 1 ≠ k + 1 := by omega
              have e5 : k + 1 < k1 + 1 ∧ k1 + 1 ≤ mgr.num_blocks.toNat := by omega
              rw [if_neg e2, if_neg e4, if_pos e5] at hb2
              have e6 : k1 + 1 - 1 = k + 1 := by omega
              rw [e6] at hb2
              exact hna k (by omega) ⟨ha, hb2⟩
            · by_cases e4 : k1 < k
              · have e5 : ¬ (k + 1 < k1 ∧ k1 ≤ mgr.num_blocks.toNat) := by omega
                have e6 : k1 + 1 ≠ k + 1 := by omega
                have e7 : ¬ (k + 1 < k1 + 1 ∧ k1 + 1 ≤ mgr.num_blocks.toNat) := by omega
                rw [if_neg hne, if_neg e3, if_neg e5] at hb1
                rw [if_neg e2, if_neg e6, if_neg e7] at hb2
                exact hna k1 (by omega) ⟨hb1, hb2⟩
              · have e5 : k + 1 < k1 ∧ k1 ≤ mgr.num_blocks.toNat := by omega
                have e6 : k1 + 1 ≠ k + 1 := by omega
                have e7 : k + 1 < k1 + 1 ∧ k1 + 1 ≤ mgr.num_blocks.toNat := by omega
                rw [if_neg hne, if_neg e3, if_pos e5] at hb1
                rw [if_neg e2, if_neg e6, if_pos e7] at hb2
                have e8 : k1 - 1 + 1 = k1 := by omega
                have e9 : k1 + 1 - 1 = k1 := by omega
                rw [e9] at hb2
                have := hna (k1 - 1) (by omega)
                rw [BothFree, e8] at this
                exact this ⟨hb1, hb2⟩
        subst hk1k
        refine ⟨by rw [merge_at_num_blocks, hn]; omega, ?_⟩
        intro j hj
        rw [merge_at_segments m c k1 hk1]
        by_cases e1 : j = k1
        · subst e1
          have e2 : j + 1 ≠ j := by omega
          rw [if_pos rfl, hs j (by omega), hs (j + 1) (by omega), hseg, hseg, if_pos rfl,
            if_neg e2, if_pos rfl]
          have hp := hfu j hk ha
          cases hseg0 : mgr.segments j with
          | mk b0 s0 a0 p0 =>
            rw [hseg0] at ha hp
            simp only at ha hp
            simp only [MemBlock.mk.injEq]
            exact ⟨trivial, by omega, ha.symm, hp.symm⟩
        · by_cases e2 : k1 < j ∧ j + 1 < m.num_blocks.toNat
          · have e3 : j + 1 ≠ k1 := by omega
            have e4 : j + 1 ≠ k1 + 1 := by omega
            have e5 : k1 + 1 < j + 1 ∧ j + 1 ≤ mgr.num_blocks.toNat := by omega
            rw [if_neg e1, if_pos e2, hs (j + 1) (by omega), hseg, if_neg e3, if_neg e4,
              if_pos e5]
            rfl
          · have e3 : j ≠ k1 + 1 := by omega
            have e4 : ¬ (k1 + 1 < j ∧ j ≤ mgr.num_blocks.toNat) := by omega
            rw [if_neg e1, if_neg e2, hs j (by omega), hseg, if_neg e1, if_neg e3, if_neg e4]
      · exact (sameTable_no_merge mgr m hna hs k1 hk1 hb).elim)
    fuel _ cells r h (Or.inl ⟨rfl, fun j _ => rfl⟩)
  rcases hP with ⟨hn, hs⟩ | hs
  · exfalso
    have hnar := coalesce_noAdjacentFree fuel _ cells r h
    apply hnar k (by rw [hn]; omega)
    constructor
    · rw [hs k (by omega), hseg, if_pos rfl]
    · have e : k + 1 ≠ k := by omega
      rw [hs (k + 1) (by omega), hseg, if_neg e, if_pos rfl]
  · exact hs

/-- Claim C21 (allocate-then-free round trip).  For every reachable state and
every request (in particular every `PROC_NEW` request with `req_size > 0`), if
`allocate_mem` succeeds and `free_mem` is then called on the same request, the
call returns (given fuel above the number of blocks) and afterwards
`num_blocks` and the first `num_blocks` segments, with all four fields, are
exactly what they were before the allocation, whether or not the allocation
split a block. -/
theorem alloc_free_round_trip (cap : Int) (mgr : MemMgr) (procs : List Proc)
    (h : Reachable cap mgr procs) (proc : Proc) (rest : List Proc)
    (hsucc : (allocate_mem mgr proc).1 = true) (fuel : Nat)
    (hfuel : (allocate_mem mgr proc).2.1.num_blocks.toNat < fuel) :
    ∃ r, free_mem fuel (allocate_mem mgr proc).2.1 (allocate_mem mgr proc).2.2 rest = some r ∧
      r.1.num_blocks = mgr.num_blocks ∧
      (∀ j : Nat, (j : Int) < mgr.num_blocks → r.1.segments j = mgr.segments j) ∧
      r.1.blocks = mgr.blocks := by
  obtain ⟨r, hr⟩ := free_mem_terminates fuel _ (allocate_mem mgr proc).2.2 rest hfuel
  refine ⟨r, hr, ?_⟩
  have hna := reachable_noAdjacentFree cap mgr procs h
  have hfu := reachable_freeUnowned cap mgr procs h
  obtain ⟨k, _, hkn, hq, _, hcase⟩ := allocate_mem_success mgr proc hsucc
  have hsame : SameTable mgr r.1 := by
    rcases hcase with ⟨_, _, heq⟩ | ⟨_, heq⟩
    · rw [heq] at hr
      rcases free_mem_cases fuel
          (claim_block (split_block mgr k proc.req_size) proc (k : Int)).2.1
          (claim_block (split_block mgr k proc.req_size) proc (k : Int)).2.2 rest with
        ⟨h1, _⟩ | ⟨_, h2⟩
      · have : ((k : Int)) = -1 := h1
        omega
      · rw [h2] at hr
        have e : (claim_block (split_block mgr k proc.req_size) proc
            (k : Int)).2.2.block_idx.toNat = k := Int.toNat_ofNat k
        rw [e] at hr
        exact round_trip_split mgr proc k hna hfu hkn hq.1 fuel _ r hr
    · rw [heq] at hr
      rcases free_mem_cases fuel (claim_block mgr proc (k : Int)).2.1
          (claim_block mgr proc (k : Int)).2.2 rest with ⟨h1, _⟩ | ⟨_, h2⟩
      · have : ((k : Int)) = -1 := h1
        omega
      · rw [h2] at hr
        have e : (claim_block mgr proc (k : Int)).2.2.block_idx.toNat = k := Int.toNat_ofNat k
        rw [e] at hr
        exact round_trip_no_split mgr proc k hna hfu hkn hq.1 fuel _ r hr
  exact ⟨hsame.1, fun j hj => hsame.2 j (by omega), blocks_congr r.1 mgr hsame.1 hsame.2⟩

theorem alloc_free_round_trip_witness :
    ∃ r, free_mem 5 (allocate_mem scenario_two_allocated.1 ⟨3, 20, ProcStatus.PROC_NEW, -1⟩).2.1
        (allocate_mem scenario_two_allocated.1 ⟨3, 20, ProcStatus.PROC_NEW, -1⟩).2.2 []
        = some r ∧
      (allocate_mem scenario_two_allocated.1 ⟨3, 20, ProcStatus.PROC_NEW, -1⟩).2.1.blocks
        = [⟨0, 40, false, 1⟩, ⟨40, 20, false, 2⟩, ⟨60, 20, false, 3⟩, ⟨80, 20, true, -1⟩] ∧
      r.1.blocks = [⟨0, 40, false, 1⟩, ⟨40, 20, false, 2⟩, ⟨60, 40, true, -1⟩] := by
  obtain ⟨r, h1, _, _, h4⟩ := alloc_free_round_trip 100 scenario_two_allocated.1
    scenario_two_allocated.2 scenario_two_allocated_reachable
    ⟨3, 20, ProcStatus.PROC_NEW, -1⟩ [] (by decide) 5 (by decide)
  refine ⟨r, h1, by decide, ?_⟩
  rw [h4]
  decide

end PA4
